import Mathlib

/-
  Verification of the sanskrit-search-library (pratika identifier,
  sandhi rules, search engine) against its specification.

  Modelling conventions (shallow embedding of the JavaScript sources):
  * A JavaScript string is a list of UTF-16 code units.  Every character
    appearing in the library's data and in this development lies in the
    Basic Multilingual Plane, so one `Char` models one code unit and
    string positions are code-unit indices.
  * `String.prototype.normalize('NFC')` is modelled as the identity: all
    Devanagari data in the sources is NFC-composed, and the library's own
    contract requires NFC input.
  * `toLowerCase` is modelled on its ASCII fragment; every Indic character
    is fixed by the Unicode simple case mapping, which is all the library's
    data exercises.
  * JavaScript numbers used as positions are modelled as `Int` where the
    source can produce a negative value and as `Nat` elsewhere.
  * Loops whose JavaScript counterparts advance a cursor are modelled with
    an explicit fuel argument large enough to cover every terminating run
    of the source (the source diverges only on an empty search needle,
    which its callers rule out).
-/

namespace JSStr

/-- The ECMAScript whitespace set: the characters matched by `\s` in a
regular expression and stripped by `String.prototype.trim`. -/
def isJsWs (c : Char) : Bool :=
  c = ' ' || c = '\t' || c = '\n' || c = '\r' || c = '\x0b' || c = '\x0c' ||
  c = '\u00a0' || c = '\u1680' || c = '\u2000' || c = '\u2001' || c = '\u2002' ||
  c = '\u2003' || c = '\u2004' || c = '\u2005' || c = '\u2006' || c = '\u2007' ||
  c = '\u2008' || c = '\u2009' || c = '\u200a' || c = '\u2028' || c = '\u2029' ||
  c = '\u202f' || c = '\u205f' || c = '\u3000' || c = '\ufeff'

/-- `String.prototype.trim`: strip leading and trailing whitespace. -/
def jsTrim (s : List Char) : List Char :=
  ((s.dropWhile isJsWs).reverse.dropWhile isJsWs).reverse

/-- Index of the first occurrence of `needle` in `l` (`0` when `needle` is
empty), or `none`. -/
def idxOf (needle : List Char) : List Char → Option Nat
  | [] => if needle.isPrefixOf ([] : List Char) then some 0 else none
  | c :: rest =>
    if needle.isPrefixOf (c :: rest) then some 0
    else (idxOf needle rest).map (· + 1)

/-- `String.prototype.indexOf(needle, start)` for a nonempty `needle`
(the library never searches for an empty string). -/
def findFrom (hay needle : List Char) (start : Nat) : Option Nat :=
  (idxOf needle (hay.drop start)).map (· + start)

/-- Fuel-driven worker for `jsReplaceAll`; consumes at least one character
of the subject per step, so `s.length + 1` fuel always suffices. -/
def jsReplaceAllAux (pat rep : List Char) : Nat → List Char → List Char
  | 0, s => s
  | fuel + 1, s =>
    if pat ≠ [] ∧ pat.isPrefixOf s then
      rep ++ jsReplaceAllAux pat rep fuel (s.drop pat.length)
    else
      match s with
      | [] => []
      | c :: rest => c :: jsReplaceAllAux pat rep fuel rest

/-- `String.prototype.replace(/pat/g, rep)` for a literal nonempty
pattern: global, non-overlapping, left-to-right replacement. -/
def jsReplaceAll (s pat rep : List Char) : List Char :=
  jsReplaceAllAux pat rep (s.length + 1) s

/-- ASCII fragment of `String.prototype.toLowerCase`; identity on every
non-ASCII character. -/
def jsToLowerChar (c : Char) : Char :=
  if 'A' ≤ c ∧ c ≤ 'Z' then Char.ofNat (c.toNat + 32) else c

/-- `String.prototype.toLowerCase` (see `jsToLowerChar`). -/
def jsToLower (s : List Char) : List Char := s.map jsToLowerChar

/-- Clamp an integer index into `[0, len]` the way `String.prototype.substring`
does. -/
def natClamp (i : Int) (len : Nat) : Nat :=
  if i < 0 then 0 else min i.toNat len

/-- `String.prototype.substring(a, b)`: clamp both arguments to the string
bounds and swap them when given in reverse order. -/
def jsSubstring (s : List Char) (a b : Int) : List Char :=
  let na := natClamp a s.length
  let nb := natClamp b s.length
  let lo := min na nb
  let hi := max na nb
  (s.drop lo).take (hi - lo)

/-- `String.prototype.substr(start, len)`: a negative `start` counts from
the end of the string. -/
def jsSubstr (s : List Char) (start : Int) (len : Nat) : List Char :=
  let st : Nat :=
    if start < 0 then ((s.length : Int) + start).toNat
    else natClamp start s.length
  (s.drop st).take len

/-- Deduplicate a list of strings keeping the first occurrence of each,
as `[...new Set(strings)]` does. -/
def dedupKeepFirstAux (seen : List (List Char)) : List (List Char) → List (List Char)
  | [] => []
  | x :: rest =>
    if seen.contains x then dedupKeepFirstAux seen rest
    else x :: dedupKeepFirstAux (x :: seen) rest

/-- See `dedupKeepFirstAux`. -/
def dedupKeepFirst (l : List (List Char)) : List (List Char) :=
  dedupKeepFirstAux [] l

/-- Convenience: the code units of a Lean string literal. -/
def dev (s : String) : List Char := s.toList

/-- `t` ends with the string literal `s`. -/
def ews (t : List Char) (s : String) : Bool := s.toList.isSuffixOf t

/-- `String.prototype.includes(sub)` for nonempty `sub`. -/
def containsSub (s sub : List Char) : Bool := (idxOf sub s).isSome

/-- `String.prototype.slice(0, -n)`: drop the last `n` code units (the whole
string when `n` exceeds its length). -/
def cutLast (l : List Char) (n : Nat) : List Char := l.take (l.length - n)

end JSStr

open JSStr

/-! ## JavaScript argument values

The library's entry points accept arbitrary JavaScript values and guard with
`!x` / `typeof x !== 'string'`.  `vOther b` stands for any non-string,
non-null value with truthiness `b`. -/

inductive JSValue where
  | vNull : JSValue
  | vStr : List Char → JSValue
  | vOther : Bool → JSValue
deriving DecidableEq, Repr

/-- JavaScript truthiness of a `JSValue`. -/
def JSValue.truthy : JSValue → Bool
  | .vNull => false
  | .vStr s => !s.isEmpty
  | .vOther b => b

namespace PratikaIdentifier

/-- Result object of `PratikaIdentifier.identifyPratika` (pratika.js).
`stem`, `pattern` and `itiEnding` are `null` on the negative paths. -/
structure PratikaResult where
  isPratika : Bool
  originalText : List Char
  stem : Option (List Char)
  pattern : Option String
  patternDescription : String
  itiEnding : Option (List Char)
  confidence : Nat
deriving DecidableEq, Repr

/-- The test `/[िीे]ति$/` of pratika.js line 41. -/
def endsWithItiCluster (t : List Char) : Bool :=
  match t.reverse with
  | 'ि' :: 'त' :: c :: _ => c = 'ि' || c = 'ी' || c = 'े'
  | _ => false

/-- The test `/\s+इति$/` of pratika.js line 41. -/
def endsWithSpaceIti (t : List Char) : Bool :=
  match t.reverse with
  | 'ि' :: 'त' :: 'इ' :: c :: _ => isJsWs c
  | _ => false

/-- The test `/^[^िीे]+इति$/` of pratika.js line 41: a nonempty prefix free
of the vowel signs ि, ी, े followed by the standalone इति. -/
def wholeWordIti (t : List Char) : Bool :=
  match t.reverse with
  | 'ि' :: 'त' :: 'इ' :: c :: rest =>
    (c :: rest).all (fun x => !(x = 'ि' || x = 'ी' || x = 'े'))
  | _ => false

/-- The test `/[ािीुूृॄॢॣेैोौ]$/` (explicit vowel sign at the end),
pratika.js line 61. -/
def endsWithVowelMark (w : List Char) : Bool :=
  match w.getLast? with
  | some c =>
    c = 'ा' || c = 'ि' || c = 'ी' || c = 'ु' || c = 'ू' || c = 'ृ' || c = 'ॄ' ||
    c = 'ॢ' || c = 'ॣ' || c = 'े' || c = 'ै' || c = 'ो' || c = 'ौ'
  | none => false

/-- The test `/[ःंँ]$/` (visarga, anusvara or candrabindu at the end),
pratika.js line 62. -/
def endsWithVisargaOrAnusvara (w : List Char) : Bool :=
  match w.getLast? with
  | some c => c = 'ः' || c = 'ं' || c = 'ँ'
  | none => false

/-- The consonant class `[कखगघङचछजझञटठडढणतथदधनपफबभमयरलवशषसह]` used by the
ोति branch, pratika.js line 278. -/
def otiConsonants : List Char :=
  "कखगघङचछजझञटठडढणतथदधनपफबभमयरलवशषसह".toList

/-- The last character of `w` equals `c`. -/
def lastIs (w : List Char) (c : Char) : Bool := w.getLast? = some c

/-- The ordered suffix-rule cascade of `identifyPratika` (pratika.js lines
99-354), returning `(working, pattern, description, confidence)`.  The
branches appear in source order; several are unreachable because an
earlier, shorter suffix also matches their inputs (e.g. `रिति` precedes
`येभ्यरिति` and `ेभ्यरिति`). -/
def chainSelect (t : List Char) : List Char × String × String × Nat :=
  if ews t "य्विति" then
    (cutLast t 6 ++ dev "यु", "yaviti", "YU (यु) + इति → य्विति sandhi", 85)
  else if ews t "ाविति" then
    (cutLast t 5 ++ dev "ौ", "aaviti", "AU (ौ) + इति → ाविति sandhi", 85)
  else if ews t "स्येति" then
    (cutLast t 4 ++ dev "य", "syeti", "Genitive singular + इति", 90)
  else if ews t "ायेति" then
    (cutLast t 5, "aayeti", "Dative singular + इति", 80)
  else if ews t "भिरिति" then
    let beforePattern := cutLast t 6
    if beforePattern ≠ [] ∧ ¬ lastIs beforePattern 'ृ' ∧ ¬ lastIs beforePattern 'ॄ' then
      (beforePattern ++ dev "भिः", "bhiriti-visarga", "Instrumental plural (ः → र sandhi) + इति", 90)
    else
      (cutLast t 6 ++ dev "भिर", "bhiriti", "Instrumental plural + इति", 90)
  else if ews t "मिति" then
    (cutLast t 4 ++ dev "म्", "miti", "Accusative singular (म्) + इति", 85)
  else if ews t "दिति" then
    (cutLast t 4 ++ dev "त्", "diti", "त् + इति → दिति sandhi", 85)
  else if ews t "रिति" then
    match (if 5 ≤ t.length then t[t.length - 5]? else none) with
    | some 'ृ' => (cutLast t 4, "riti-rvowel", "R vowel + इति", 80)
    | some 'ॄ' => (cutLast t 4, "riti-rvowel", "R vowel + इति", 80)
    | _ => (cutLast t 4 ++ dev "ः", "riti-visarga", "Visarga (ः) + इति → रिति sandhi", 88)
  else if ews t "येभ्यरिति" then
    (cutLast t 8 ++ dev "येभ्यः", "yebhyariti", "Dative/ablative plural + इति", 95)
  else if ews t "ेभ्यरिति" then
    (cutLast t 8 ++ dev "ेभ्यः", "ebhyariti", "Dative/ablative plural + इति", 95)
  else if ews t "भ्यामिति" then
    (cutLast t 7, "bhyaamiti", "Dual instrumental/dative/ablative + इति", 95)
  else if ews t "ानामिति" then
    (cutLast t 7, "aanaamiti", "Genitive plural + इति", 95)
  else if ews t "णामिति" then
    (cutLast t 6, "naamiti", "Genitive plural feminine + इति", 95)
  else if ews t "यामिति" then
    (cutLast t 6, "yaamiti", "Locative feminine singular + इति", 95)
  else if ews t "यारिति" then
    (cutLast t 5 ++ dev "याः", "yaarिति", "Genitive/ablative feminine + इति", 90)
  else if ews t "ेणेति" then
    (cutLast t 4, "eneti", "Instrumental singular + इति", 90)
  else if ews t "ोरिति" then
    (cutLast t 5 ++ dev "ोः", "oriti", "Dual genitive/locative + इति", 90)
  else if ews t "ष्विति" then
    (cutLast t 5, "shviti", "Locative plural + इति", 85)
  else if ews t "स्विति" then
    (cutLast t 5, "sviti", "Locative plural feminine + इति", 85)
  else if ews t "ैरिति" then
    (cutLast t 5 ++ dev "ैः", "airiti", "Instrumental plural + इति", 85)
  else if ews t "ानिति" then
    (cutLast t 5, "aaniti", "Accusative plural + इति", 80)
  else if ews t "ानीति" then
    (cutLast t 6, "aaneeiti", "Accusative plural (ानि) + इति", 80)
  else if ews t "ोति" then
    match (if 4 ≤ t.length then t[t.length - 4]? else none) with
    | some c =>
      if otiConsonants.contains c then
        (cutLast t 3 ++ dev "ः", "oti-visarga", "Visarga (ः) + इति → ोति sandhi", 70)
      else
        (cutLast t 3, "oti", "O vowel + इति", 65)
    | none => (cutLast t 3, "oti", "O vowel + इति", 65)
  else if ews t "ेति" then
    (cutLast t 3, "eti", "A vowel or stem + इति", 65)
  else if ews t "ीति" then
    (cutLast t 3, "eeti", "I vowel + इति", 70)
  else if ews t "ूति" then
    (cutLast t 3, "ooti", "U vowel + इति", 70)
  else if ews t "ैति" then
    (cutLast t 3, "aiti", "E/AI vowel + इति", 70)
  else if ews t "ौति" then
    (cutLast t 3, "auti", "AU dual + इति", 70)
  else if ews t "लिति" then
    (cutLast t 4, "liti", "L vowel + इति", 80)
  else if ews t "विति" then
    (cutLast t 4, "viti", "U vowel + इति", 75)
  else if ews t "येति" then
    (cutLast t 4, "yeti", "Instrumental/dative singular + इति", 75)
  else
    (cutLast t 3, "generic", "Generic stem + इति", 60)

/-- Common tail of the suffix-rule path of `identifyPratika` (pratika.js
lines 356-381): reject stems shorter than 2 characters, otherwise return
the positive classification. -/
def finishChain (t working : List Char) (pat desc : String) (conf : Nat) :
    PratikaResult :=
  if working.length < 2 then
    ⟨false, t, none, none,
      "Stem too short - likely a regular word, not a pratika", none, 0⟩
  else
    ⟨true, t, some working, some pat, desc, some (t.drop working.length), conf⟩

/-- `identifyPratika` on a (nonempty) string argument, after the
`!text || typeof text !== 'string'` guard. -/
def identifyPratikaStr (text : List Char) : PratikaResult :=
  let t := jsTrim text
  if ¬ (endsWithItiCluster t || endsWithSpaceIti t || wholeWordIti t) then
    ⟨false, t, none, none,
      "Only words ending with इति, िति, ीति, or ेति qualify as pratikas", none, 0⟩
  else if endsWithSpaceIti t then
    -- `trimmedText.replace(/\s+इति$/, '').trim()`: drop the इति cluster and
    -- strip the whitespace run that preceded it.
    let wordBeforeIti := jsTrim (cutLast t 3)
    if endsWithVowelMark wordBeforeIti || endsWithVisargaOrAnusvara wordBeforeIti then
      ⟨false, t, none, none,
        "Space-separated इति with explicit vowel/visarga is not a pratika", none, 0⟩
    else
      ⟨true, t, some wordBeforeIti, some "space-iti-inherent-a",
        "Space + इति after consonant (inherent अ sandhi)", some (dev " इति"), 75⟩
  else
    match chainSelect t with
    | (working, pat, desc, conf) => finishChain t working pat desc conf

/-- `PratikaIdentifier.identifyPratika` (pratika.js lines 28-382): `null`
for falsy or non-string arguments, a `PratikaResult` otherwise. -/
def identifyPratika : JSValue → Option PratikaResult
  | .vStr s => if s.isEmpty then none else some (identifyPratikaStr s)
  | _ => none

end PratikaIdentifier

namespace SanskritSandhiRules

/-- One fusion rule of sandhi-rules.js (`pattern + following = result`).
For the two visarga-before-vowel rules, `following` is the literal source
text `[अइउऋएओ]` of the rule table, which the splitting code concatenates
verbatim. -/
structure SandhiRule where
  pattern : List Char
  following : List Char
  result : List Char
  rule : String
deriving DecidableEq, Repr

/-- The vowel sandhi table (स्वरसन्धि) of sandhi-rules.js. -/
def vowelSandhi : List SandhiRule :=
  [
   ⟨"अ".toList, "अ".toList, "आ".toList, "a+a=ā"⟩,
   ⟨"अ".toList, "इ".toList, "ए".toList, "a+i=e"⟩,
   ⟨"अ".toList, "उ".toList, "ओ".toList, "a+u=o"⟩,
   ⟨"अ".toList, "ऋ".toList, "अर्".toList, "a+ṛ=ar"⟩,
   ⟨"आ".toList, "इ".toList, "ऐ".toList, "ā+i=ai"⟩,
   ⟨"आ".toList, "उ".toList, "औ".toList, "ā+u=au"⟩,
   ⟨"इ".toList, "अ".toList, "य".toList, "i+a=ya"⟩,
   ⟨"उ".toList, "अ".toList, "व".toList, "u+a=va"⟩,
   ⟨"ऋ".toList, "अ".toList, "र".toList, "ṛ+a=ra"⟩,
   ⟨"ए".toList, "अ".toList, "ए".toList, "e+a=e"⟩,
   ⟨"ओ".toList, "अ".toList, "ओ".toList, "o+a=o"⟩
  ]

/-- The consonant sandhi table (व्यञ्जनसन्धि) of sandhi-rules.js. -/
def consonantSandhi : List SandhiRule :=
  [
   ⟨"त्".toList, "च".toList, "च्च".toList, "t+c=cc"⟩,
   ⟨"त्".toList, "ज".toList, "ज्ज".toList, "t+j=jj"⟩,
   ⟨"त्".toList, "श".toList, "च्छ".toList, "t+ś=cch"⟩,
   ⟨"द्".toList, "च".toList, "च्च".toList, "d+c=cc"⟩,
   ⟨"न्".toList, "च".toList, "ञ्च".toList, "n+c=ñc"⟩,
   ⟨"न्".toList, "ज".toList, "ञ्ज".toList, "n+j=ñj"⟩,
   ⟨"म्".toList, "प".toList, "म्प".toList, "m+p=mp"⟩,
   ⟨"म्".toList, "ब".toList, "म्ब".toList, "m+b=mb"⟩
  ]

/-- The visarga sandhi table (विसर्गसन्धि) of sandhi-rules.js. -/
def visargaSandhi : List SandhiRule :=
  [
   ⟨"ः".toList, "क".toList, "ष्क".toList, "ḥ+k=ṣk"⟩,
   ⟨"ः".toList, "प".toList, "ष्प".toList, "ḥ+p=ṣp"⟩,
   ⟨"ः".toList, "त".toList, "स्त".toList, "ḥ+t=st"⟩,
   ⟨"ः".toList, "च".toList, "श्च".toList, "ḥ+c=śc"⟩,
   ⟨"ः".toList, "अ".toList, "ओ".toList, "aḥ+a=o"⟩,
   ⟨"ः".toList, "[अइउऋएओ]".toList, "र्".toList, "ḥ+vowel=r"⟩,
   ⟨"ः".toList, "[अइउऋएओ]".toList, [], "ḥ+vowel=drop"⟩
  ]

/-- One ending-substitution rule of sandhi-rules.js (`pattern` is the
suffix matched by the anchored regular expression `pattern$`). -/
structure EndingVariation where
  pattern : List Char
  variations : List (List Char)
  rule : String
deriving DecidableEq, Repr

/-- The common ending-variation table of sandhi-rules.js. -/
def endingVariations : List EndingVariation :=
  [
   ⟨"ः".toList, [[], "ह्".toList], "nom-sg-visarga"⟩,
   ⟨"म्".toList, [[], "न्".toList], "acc-sg-anusvara"⟩,
   ⟨"अ".toList, ["ो".toList, "ं".toList], "ending-a"⟩
  ]

/-- A `{text, rule}` variation produced by the sandhi splitter. -/
structure SVariation where
  text : List Char
  rule : String
deriving DecidableEq, Repr

/-- `trySplitSandhi` (sandhi-rules.js lines 118-139): for every rule whose
`result` occurs in the term, substitute `pattern + following` for its first
occurrence. -/
def trySplitSandhi (term : List Char) : List SVariation :=
  ((vowelSandhi ++ consonantSandhi ++ visargaSandhi).map (fun r =>
    match JSStr.idxOf r.result term with
    | some i =>
      [(⟨term.take i ++ r.pattern ++ r.following ++ term.drop (i + r.result.length),
         "reverse-" ++ r.rule⟩ : SVariation)]
    | none => [])).flatten

/-- `tryEndingVariations` (sandhi-rules.js lines 145-164): anchored suffix
substitutions, dropping substitutions that leave the term unchanged. -/
def tryEndingVariations (term : List Char) : List SVariation :=
  (endingVariations.map (fun e =>
    if e.pattern.isSuffixOf term then
      (e.variations.map (fun v =>
        let newTerm := JSStr.cutLast term e.pattern.length ++ v
        if newTerm ≠ term then [(⟨newTerm, e.rule⟩ : SVariation)] else [])).flatten
    else [])).flatten

/-- `tryVowelCombinations` (sandhi-rules.js lines 170-189): the same
substitution as `trySplitSandhi` restricted to the vowel table and tagged
`expand-`. -/
def tryVowelCombinations (term : List Char) : List SVariation :=
  (vowelSandhi.map (fun r =>
    match JSStr.idxOf r.result term with
    | some i =>
      [(⟨term.take i ++ r.pattern ++ r.following ++ term.drop (i + r.result.length),
         "expand-" ++ r.rule⟩ : SVariation)]
    | none => [])).flatten

/-- Deduplicate variations by their `text`, keeping the first occurrence,
as the `seen` map of `generateVariations` does. -/
def dedupSVarAux (seen : List (List Char)) : List SVariation → List SVariation
  | [] => []
  | v :: rest =>
    if seen.contains v.text then dedupSVarAux seen rest
    else v :: dedupSVarAux (v.text :: seen) rest

/-- `SanskritSandhiRules.generateVariations` (sandhi-rules.js lines
88-112): the identity variation followed by the three strategies,
deduplicated by text. -/
def generateVariations (term : List Char) : List SVariation :=
  dedupSVarAux []
    ([(⟨term, "original"⟩ : SVariation)] ++ trySplitSandhi term ++
      tryEndingVariations term ++ tryVowelCombinations term)

end SanskritSandhiRules

namespace SanskritSearch

/-- Constructor options of `SanskritSearch` (sanskrit-search.js lines
10-17); `none` models an absent property. -/
structure SSOptions where
  caseSensitive : Option Bool
  highlightClass : Option String
  contextLength : Option Nat
  enableSandhi : Option Bool
  maxResults : Option Nat
deriving DecidableEq, Repr

/-- Effective configuration after the constructor's defaulting. -/
structure SSConfig where
  caseSensitive : Bool
  highlightClass : String
  contextLength : Nat
  enableSandhi : Bool
  maxResults : Nat
deriving DecidableEq, Repr

/-- `x || d` for an optional number: `0` is falsy, so an explicit `0` is
replaced by the default. -/
def orNat (o : Option Nat) (d : Nat) : Nat :=
  match o with
  | some 0 => d
  | some n => n
  | none => d

/-- `x || d` for an optional string: the empty string is falsy. -/
def orStr (o : Option String) (d : String) : String :=
  match o with
  | some "" => d
  | some s => s
  | none => d

/-- The `SanskritSearch` constructor's config object (sanskrit-search.js
lines 10-17).  `enableSandhi` is `config.enableSandhi !== false`, so it
defaults to `true`. -/
def mkConfig (o : SSOptions) : SSConfig :=
  ⟨o.caseSensitive.getD false,
   orStr o.highlightClass "search-highlight",
   orNat o.contextLength 50,
   o.enableSandhi != some false,
   orNat o.maxResults 100⟩

/-- The Sanskrit ending characters `[ंःँािीुूेैोौृॄॢॣ्ᳵᳶ]` used by
`directSearch` for boundary extension and by the forward part of
`generatePratikaVariations` (sanskrit-search.js lines 484 and 606). -/
def sanskritEndingChars : List Char :=
  "ंःँािीुूेैोौृॄॢॣ्ᳵᳶ".toList

/-- The multi-script ending-marker class of `hasEndingMarker`
(sanskrit-search.js line 368), written out character for character as in
the source (it includes the bare nasal letters of each script because the
source writes sequences such as `म्` inside the character class). -/
def endingMarkerChars : List Char :=
  "ंःँािीुूेैोौृॄॢॣ्ᳵᳶम्ಂಃಾಿೀುೂೃೄೆೇೈೊೋೌ್ಮ್ஂஃாிீுூெேைொோௌ்ம்ంఃాిీుూృౄెేైొోౌ్మ్ംഃാിീുൂൃെേൈൊോൌ്മ്ংঃািীুূৃেৈোৌ্ম্ંઃાિીુૂૃેૈોૌ્મ્ଂଃାିୀୁୂୃେୈୋୌ୍ମ୍".toList

/-- `hasEndingMarker` (sanskrit-search.js lines 362-370): does the final
character carry an explicit phonological marker? -/
def hasEndingMarker (term : List Char) : Bool :=
  match term.getLast? with
  | some c => endingMarkerChars.contains c
  | none => false

/-- The word-boundary character class of `exactWordSearch`
(sanskrit-search.js line 168): ECMAScript whitespace plus the listed
punctuation (including the Devanagari dandas and the two Kannada digits
present in the source class). -/
def isBoundaryChar (c : Char) : Bool :=
  JSStr.isJsWs c || c = '।' || c = '॥' || c = '೧' || c = '೨' || c = ',' ||
  c = ';' || c = '\'' || c = '"' || c = '(' || c = ')' || c = '[' || c = ']' ||
  c = '\x7b' || c = '\x7d' || c = '/' || c = '<' || c = '>' || c = '|'

/-- Context captured around a match, `getContext` (sanskrit-search.js
lines 630-640).  The source's `match` field is called `matchText`. -/
structure MatchContext where
  before : List Char
  matchText : List Char
  after : List Char
  full : List Char
deriving DecidableEq, Repr

/-- `getContext`: up to `contextLength` characters before and after. -/
def getContext (contextLength : Nat) (text : List Char) (position : Int)
    (length : Nat) : MatchContext :=
  let start : Int := max 0 (position - contextLength)
  let stop : Int := min (text.length : Int) (position + length + contextLength)
  ⟨JSStr.jsSubstring text start position,
   JSStr.jsSubstr text position length,
   JSStr.jsSubstring text (position + length) stop,
   JSStr.jsSubstring text start stop⟩

/-- A search match object.  `position` is an `Int` because the
`matchStart` arithmetic of `exactWordSearch` can in principle go negative;
the source's `type` field is called `mtype`.  Fields absent on a given
JavaScript object are `none`. -/
structure SearchMatch where
  position : Int
  length : Nat
  matchedText : List Char
  context : MatchContext
  mtype : String
  variant : Option (List Char)
  sandhiRule : Option String
  pratikaPattern : Option String
  originalTerm : Option (List Char)
deriving DecidableEq, Repr

/-- Result envelope: `matchesList` models the JS `matches` field; the wall-clock
`timestamp` field is omitted from the model, and `searchTerm` is `none`
for the early empty-input returns, which do not set it. -/
structure SearchResults where
  matchesList : List SearchMatch
  count : Nat
  searchTerm : Option (List Char)
deriving DecidableEq, Repr

/-- Comparator `(a, b) => a.position - b.position` as an order relation. -/
def posLe (a b : SearchMatch) : Prop := a.position ≤ b.position

instance : DecidableRel posLe := fun a b =>
  inferInstanceAs (Decidable (a.position ≤ b.position))

instance : IsTotal SearchMatch posLe := ⟨fun a b => Int.le_total a.position b.position⟩

instance : IsTrans SearchMatch posLe := ⟨fun _ _ _ h h2 => le_trans h h2⟩

/-- `matches.sort((a, b) => a.position - b.position)` (a stable sort). -/
def sortByPosition (l : List SearchMatch) : List SearchMatch :=
  l.insertionSort posLe

/-- `isDuplicate` (sanskrit-search.js lines 646-651): same position and
length. -/
def isDuplicate (m : SearchMatch) (existing : List SearchMatch) : Bool :=
  existing.any (fun e => e.position == m.position && e.length == m.length)

/-- Loop of `directSearch` (sanskrit-search.js lines 489-511).  The cursor
advances by the term length after each hit; fuel `textStr.length + 1`
covers every run with a nonempty term (the source diverges on an empty
term, which `search` rules out). -/
def directLoop (cl : Nat) (term text searchStr textStr : List Char)
    (endsMark : Bool) : Nat → Nat → List SearchMatch
  | _, 0 => []
  | pos, fuel + 1 =>
    match JSStr.findFrom textStr searchStr pos with
    | none => []
    | some p =>
      let matchLength :=
        if endsMark then term.length
        else
          term.length +
            ((text.drop (p + term.length)).takeWhile
              (fun c => sanskritEndingChars.contains c)).length
      ⟨(p : Int), matchLength, JSStr.jsSubstr text (p : Int) matchLength,
        getContext cl text (p : Int) matchLength, "direct",
        none, none, none, none⟩ ::
        directLoop cl term text searchStr textStr endsMark (p + term.length) fuel

/-- `directSearch` (sanskrit-search.js lines 478-514): substring scan with
rightward extension over Sanskrit ending marks unless the term already
ends in one. -/
def directSearch (cfg : SSConfig) (searchTerm text : List Char) :
    List SearchMatch :=
  let searchStr := if cfg.caseSensitive then searchTerm else JSStr.jsToLower searchTerm
  let textStr := if cfg.caseSensitive then text else JSStr.jsToLower text
  let endsMark :=
    match searchTerm.getLast? with
    | some c => sanskritEndingChars.contains c
    | none => false
  directLoop cfg.contextLength searchTerm text searchStr textStr endsMark 0
    (textStr.length + 1)

/-- `sandhiAwareSearch` (sanskrit-search.js lines 520-537): run
`directSearch` on every sandhi variation and retag the matches. -/
def sandhiAwareSearch (cfg : SSConfig) (searchTerm text : List Char) :
    List SearchMatch :=
  ((SanskritSandhiRules.generateVariations searchTerm).map (fun v =>
    (directSearch cfg v.text text).map (fun m =>
      ⟨m.position, m.length, m.matchedText, m.context, "sandhi",
        m.variant, some v.rule, m.pratikaPattern, some searchTerm⟩))).flatten

/-- Append `x` when `b` holds (one conditional `variants.push`). -/
def pushIf (l : List (List Char)) (b : Bool) (x : List Char) :
    List (List Char) :=
  if b then l ++ [x] else l

/-- `generatePhoneticVariants` (sanskrit-search.js lines 227-304):
anusvara/nasal-consonant equivalence across eight scripts plus the
Devanagari visarga equivalences, deduplicated keeping first.  In the
Telugu anusvara case the source's replace pattern is the Sinhala anusvara
(a different code point from the one tested), so that push yields the term
unchanged; the model reproduces this verbatim. -/
def generatePhoneticVariants (term : List Char) : List (List Char) :=
  let l := [term]
  let l := pushIf l (JSStr.containsSub term ("म्".toList)) (JSStr.jsReplaceAll term ("म्".toList) ("ं".toList))
  let l := pushIf l (JSStr.containsSub term ("ं".toList)) (JSStr.jsReplaceAll term ("ं".toList) ("म्".toList))
  let l := pushIf l (JSStr.containsSub term ("ಮ್".toList)) (JSStr.jsReplaceAll term ("ಮ್".toList) ("ಂ".toList))
  let l := pushIf l (JSStr.containsSub term ("ಂ".toList)) (JSStr.jsReplaceAll term ("ಂ".toList) ("ಮ್".toList))
  let l := pushIf l (JSStr.containsSub term ("ம்".toList)) (JSStr.jsReplaceAll term ("ம்".toList) ("ஂ".toList))
  let l := pushIf l (JSStr.containsSub term ("ஂ".toList)) (JSStr.jsReplaceAll term ("ஂ".toList) ("ம்".toList))
  let l := pushIf l (JSStr.containsSub term ("మ్".toList)) (JSStr.jsReplaceAll term ("మ్".toList) ("ం".toList))
  let l := pushIf l (JSStr.containsSub term ("ం".toList)) (JSStr.jsReplaceAll term ("ං".toList) ("మ్".toList))
  let l := pushIf l (JSStr.containsSub term ("മ്".toList)) (JSStr.jsReplaceAll term ("മ്".toList) ("ം".toList))
  let l := pushIf l (JSStr.containsSub term ("ം".toList)) (JSStr.jsReplaceAll term ("ം".toList) ("മ്".toList))
  let l := pushIf l (JSStr.containsSub term ("ম্".toList)) (JSStr.jsReplaceAll term ("ম্".toList) ("ং".toList))
  let l := pushIf l (JSStr.containsSub term ("ং".toList)) (JSStr.jsReplaceAll term ("ং".toList) ("ম্".toList))
  let l := pushIf l (JSStr.containsSub term ("મ્".toList)) (JSStr.jsReplaceAll term ("મ્".toList) ("ં".toList))
  let l := pushIf l (JSStr.containsSub term ("ં".toList)) (JSStr.jsReplaceAll term ("ં".toList) ("મ્".toList))
  let l := pushIf l (JSStr.containsSub term ("ମ୍".toList)) (JSStr.jsReplaceAll term ("ମ୍".toList) ("ଂ".toList))
  let l := pushIf l (JSStr.containsSub term ("ଂ".toList)) (JSStr.jsReplaceAll term ("ଂ".toList) ("ମ୍".toList))
  let l := pushIf l (JSStr.containsSub term ("ः".toList)) (JSStr.jsReplaceAll term ("ः".toList) ("स्".toList))
  let l := pushIf l (JSStr.containsSub term ("स्".toList))
    (if ("स्".toList).isSuffixOf term then JSStr.cutLast term 2 ++ "ः".toList else term)
  JSStr.dedupKeepFirst l

/-- One alternative of the boundary group `(?:^|[B]|$)` at position `j`,
returning the number of characters it consumes: `^` matches the empty
string only at position 0, the class consumes one boundary character, and
`$` matches the empty string only at the end. -/
def tailBnd (text : List Char) (j : Nat) : Option Nat :=
  if j = 0 then some 0
  else
    match text[j]? with
    | some c =>
      if isBoundaryChar c then some 1
      else if j = text.length then some 0 else none
    | none => if j = text.length then some 0 else none

/-- Attempt the regular expression `(?:^|[B]|$)(variant)(?:^|[B]|$)` at
start position `i`, alternatives in source order; returns the consumed
lead and tail lengths. -/
def attemptAt (text v : List Char) (i : Nat) : Option (Nat × Nat) :=
  match (if i = 0 ∧ v.isPrefixOf text then tailBnd text v.length else none) with
  | some t => some (0, t)
  | none =>
    match
      (match text[i]? with
       | some c =>
         if isBoundaryChar c ∧ v.isPrefixOf (text.drop (i + 1)) then
           tailBnd text (i + 1 + v.length)
         else none
       | none => none) with
    | some t => some (1, t)
    | none =>
      match
        (if i = text.length ∧ v.isPrefixOf (text.drop i) then tailBnd text i
         else none) with
      | some t => some (0, t)
      | none => none

/-- Leftmost match of the boundary pattern at or after `i`; `k` counts the
remaining start positions. -/
def firstBMAux (text v : List Char) : Nat → Nat → Option (Nat × Nat × Nat)
  | _, 0 => none
  | i, k + 1 =>
    match attemptAt text v i with
    | some (l, t) => some (i, l, t)
    | none => firstBMAux text v (i + 1) k

/-- `pattern.exec(text)` from `lastIndex = start` for the boundary
pattern: the leftmost match position with its lead and tail lengths. -/
def firstBM (text v : List Char) (start : Nat) : Option (Nat × Nat × Nat) :=
  firstBMAux text v start (text.length + 1 - start)

/-- Build the match object pushed by `exactWordSearch`: `match[1]` is the
variant itself, and `variant` is recorded only when it differs from the
search term. -/
def mkExactMatch (cl : Nat) (text searchTerm v : List Char) (pos : Int) :
    SearchMatch :=
  ⟨pos, v.length, v, getContext cl text pos v.length, "exact",
    (if v ≠ searchTerm then some v else none), none, none, none⟩

/-- Guarded push of `exactWordSearch`: skip the match when one at the
same position was already recorded. -/
def pushByPos (acc : List SearchMatch) (m : SearchMatch) : List SearchMatch :=
  if acc.any (fun x => x.position == m.position) then acc else acc ++ [m]

/-- The `matchStart` arithmetic of `exactWordSearch` (sanskrit-search.js
line 177): `match.index` plus `match[0].length - match[1].length`, minus
one when `match[0]` ends in a boundary character. -/
def regexMatchStart (text v : List Char) (i lead tail : Nat) : Int :=
  (i : Int) + Int.ofNat (lead + v.length + tail) - Int.ofNat v.length -
    Int.ofNat
      (match text[i + (lead + v.length + tail) - 1]? with
       | some c => if isBoundaryChar c then 1 else 0
       | none => 0)

/-- The `while ((match = pattern.exec(text)) !== null)` loop of
`exactWordSearch` (sanskrit-search.js lines 176-191), threading the global
accumulated match list for its position-based duplicate check.
`matchStart` is `match.index` plus the lead length, computed as in the
source via the length of `match[0]` and a test on its final character. -/
def exactRegexLoop (cl : Nat) (text searchTerm v : List Char) :
    Nat → List SearchMatch → Nat → List SearchMatch
  | _, acc, 0 => acc
  | lastIndex, acc, fuel + 1 =>
    match firstBM text v lastIndex with
    | none => acc
    | some (i, lead, tail) =>
      if lead + v.length + tail = 0 then acc
      else
        exactRegexLoop cl text searchTerm v (i + (lead + v.length + tail))
          (pushByPos acc
            (mkExactMatch cl text searchTerm v (regexMatchStart text v i lead tail)))
          fuel

/-- The substring-fallback loop of `exactWordSearch` (sanskrit-search.js
lines 195-210). -/
def exactFallbackLoop (cl : Nat) (text searchTerm v : List Char) :
    Nat → List SearchMatch → Nat → List SearchMatch
  | _, acc, 0 => acc
  | idx, acc, fuel + 1 =>
    match JSStr.findFrom text v idx with
    | none => acc
    | some p =>
      exactFallbackLoop cl text searchTerm v (p + v.length)
        (pushByPos acc (mkExactMatch cl text searchTerm v (p : Int))) fuel

/-- Per-variant body of `exactWordSearch`: the boundary scan, then the
substring fallback, which runs only when the global match list is still
empty after this variant's boundary scan. -/
def processVariant (cl : Nat) (text searchTerm : List Char)
    (acc : List SearchMatch) (v : List Char) : List SearchMatch :=
  let acc1 := exactRegexLoop cl text searchTerm v 0 acc (text.length + 2)
  if acc1.isEmpty then exactFallbackLoop cl text searchTerm v 0 acc1 (text.length + 2)
  else acc1

/-- `exactWordSearch` (sanskrit-search.js lines 146-220): word-boundary
matching of every phonetic variant, sorted by position.  Note that the
result is not capped to `maxResults`. -/
def exactMatchesRaw (cl : Nat) (text searchTerm : List Char) :
    List SearchMatch :=
  (generatePhoneticVariants searchTerm).foldl (processVariant cl text searchTerm) []

/-- See `exactMatchesRaw` for the accumulated per-variant matches. -/
def exactWordSearch (cfg : SSConfig) (searchTerm text : List Char) :
    SearchResults :=
  if searchTerm.isEmpty || text.isEmpty then ⟨[], 0, none⟩
  else
    ⟨sortByPosition (exactMatchesRaw cfg.contextLength text searchTerm),
      (sortByPosition (exactMatchesRaw cfg.contextLength text searchTerm)).length,
      some searchTerm⟩

/-- Guarded push of the fuzzy merge: drop a sandhi match duplicating an
existing `(position, length)` pair. -/
def pushByPosLen (acc : List SearchMatch) (m : SearchMatch) : List SearchMatch :=
  if isDuplicate m acc then acc else acc ++ [m]

/-- The merged direct and sandhi match list of fuzzy mode. -/
def fuzzyMerged (cfg : SSConfig) (sandhiAvailable : Bool)
    (searchTerm text : List Char) : List SearchMatch :=
  if cfg.enableSandhi && sandhiAvailable then
    (sandhiAwareSearch cfg searchTerm text).foldl pushByPosLen
      (directSearch cfg searchTerm text)
  else directSearch cfg searchTerm text

/-- Fuzzy-mode matches after sorting and the `maxResults` cap. -/
def fuzzyCapped (cfg : SSConfig) (sandhiAvailable : Bool)
    (searchTerm text : List Char) : List SearchMatch :=
  if cfg.maxResults ≠ 0 then
    (sortByPosition (fuzzyMerged cfg sandhiAvailable searchTerm text)).take
      cfg.maxResults
  else sortByPosition (fuzzyMerged cfg sandhiAvailable searchTerm text)

/-- `search` (sanskrit-search.js lines 377-425) on string arguments.
`sandhiAvailable` models whether the optional `SanskritSandhiRules`
collaborator was found at construction time (`window.SanskritSandhiRules`).
Precision mode delegates to `exactWordSearch`; fuzzy mode merges direct
and sandhi matches with `(position, length)` deduplication, sorts, and
caps to `maxResults`. -/
def search (cfg : SSConfig) (sandhiAvailable : Bool)
    (searchTerm text : List Char) : SearchResults :=
  if searchTerm.isEmpty || text.isEmpty then ⟨[], 0, none⟩
  else if hasEndingMarker searchTerm then exactWordSearch cfg searchTerm text
  else
    ⟨fuzzyCapped cfg sandhiAvailable searchTerm text,
      (fuzzyCapped cfg sandhiAvailable searchTerm text).length,
      some searchTerm⟩

/-- `search` on arbitrary JavaScript arguments: falsy arguments hit the
early empty return; a truthy non-string argument reaches `.normalize` and
throws a `TypeError`. -/
def searchJS (cfg : SSConfig) (sandhiAvailable : Bool) (tv xv : JSValue) :
    Except String SearchResults :=
  if !tv.truthy || !xv.truthy then .ok ⟨[], 0, none⟩
  else
    match tv, xv with
    | .vStr t, .vStr x => .ok (search cfg sandhiAvailable t x)
    | _, _ => .error "TypeError: normalize is not a function"

/-- A document passed to the multi-document entry points; `metadata` is
opaque to the algorithms and omitted from the model. -/
structure Document where
  id : Nat
  text : List Char
deriving DecidableEq, Repr

/-- Per-document result of `searchMultiple`. -/
structure DocResult where
  id : Nat
  matchesList : List SearchMatch
  count : Nat
  searchTerm : Option (List Char)
deriving DecidableEq, Repr

/-- `searchMultiple` (sanskrit-search.js lines 688-697): search every
document, keep those with at least one match. -/
def searchMultiple (cfg : SSConfig) (sandhiAvailable : Bool)
    (searchTerm : List Char) (documents : List Document) : List DocResult :=
  (documents.map (fun doc =>
    let r := search cfg sandhiAvailable searchTerm doc.text
    (⟨doc.id, r.matchesList, r.count, r.searchTerm⟩ : DocResult))).filter
    (fun r => decide (0 < r.count))

/-- The tokenizer class of `extractWords` (sanskrit-search.js line 766):
whitespace and the listed punctuation. -/
def isExtractDelim (c : Char) : Bool :=
  JSStr.isJsWs c || c = '.' || c = ',' || c = ';' || c = '!' || c = '?' ||
  c = '(' || c = ')' || c = '[' || c = ']' || c = '\x7b' || c = '\x7d' ||
  c = '।' || c = '॥'

/-- Split on delimiter runs, accumulating the current word reversed. -/
def splitWordsAux : List Char → List Char → List (List Char)
  | [], cur => if cur.isEmpty then [] else [cur.reverse]
  | c :: rest, cur =>
    if isExtractDelim c then
      if cur.isEmpty then splitWordsAux rest []
      else cur.reverse :: splitWordsAux rest []
    else splitWordsAux rest (c :: cur)

/-- `extractWords` (sanskrit-search.js lines 764-768): split, drop empty
tokens, deduplicate keeping first occurrence. -/
def extractWords (text : List Char) : List (List Char) :=
  JSStr.dedupKeepFirst (splitWordsAux text [])

/-- The inverted index of `createIndex`: document ids in order, and an
association from token to the document ordinals containing it (a JS `Map`
of `Set`s, modelled with insertion order preserved). -/
structure SearchIndex where
  documents : List Nat
  terms : List (List Char × List Nat)
deriving DecidableEq, Repr

/-- Add ordinal `i` to the entry of token `w` (creating it at the end if
absent), as `index.terms.get(word).add(docIndex)` does. -/
def addTerm (terms : List (List Char × List Nat)) (w : List Char) (i : Nat) :
    List (List Char × List Nat) :=
  match terms with
  | [] => [(w, [i])]
  | (k, is) :: rest =>
    if k = w then (k, if is.contains i then is else is ++ [i]) :: rest
    else (k, is) :: addTerm rest w i

/-- Worker of `createIndex` carrying the running document ordinal. -/
def createIndexAux : List Document → Nat → SearchIndex → SearchIndex
  | [], _, acc => acc
  | d :: rest, i, acc =>
    createIndexAux rest (i + 1)
      ⟨acc.documents ++ [d.id],
        (extractWords d.text).foldl (fun ts w => addTerm ts w i) acc.terms⟩

/-- `createIndex` (sanskrit-search.js lines 735-758). -/
def createIndex (documents : List Document) : SearchIndex :=
  createIndexAux documents 0 ⟨[], []⟩

/-- Lookup in an association list keyed by strings. -/
def lookupAssoc {α : Type} (m : List (List Char × α)) (k : List Char) :
    Option α :=
  (m.find? (fun p => p.1 == k)).map (·.2)

/-- `searchWithIndex` (sanskrit-search.js lines 777-791): collect the
ordinals of documents sharing a token with the term, then run
`searchMultiple` on those documents only. -/
def searchWithIndex (cfg : SSConfig) (sandhiAvailable : Bool)
    (searchTerm : List Char) (index : SearchIndex)
    (documents : List Document) : List DocResult :=
  let ws := extractWords searchTerm
  let relevant :=
    ws.foldl (fun acc w =>
      match lookupAssoc index.terms w with
      | some is => is.foldl (fun a i => if a.contains i then a else a ++ [i]) acc
      | none => acc) ([] : List Nat)
  let relevantDocs := relevant.filterMap (fun i => documents[i]?)
  searchMultiple cfg sandhiAvailable searchTerm relevantDocs

/-- The reverse iti-quotation map of `createItiSandhiMap`
(sanskrit-search.js lines 34-73): iti-suffix to possible base endings, in
source order. -/
def reverseEntries : List (List Char × List (List Char)) :=
  [
   ("ेति".toList, [[], "अ".toList, "आ".toList]),
   ("ीति".toList, ["इ".toList, "ई".toList]),
   ("ूति".toList, ["उ".toList, "ऊ".toList]),
   ("वीति".toList, ["उ".toList, "ऊ".toList]),
   ("विति".toList, ["उ".toList, "ऊ".toList]),
   ("रिति".toList, ["ऋ".toList, "ॠ".toList]),
   ("लिति".toList, ["ऌ".toList, "ॡ".toList]),
   ("ैति".toList, ["ए".toList, "ै".toList]),
   ("ावीति".toList, ["ओ".toList, "औ".toList]),
   ("ाविति".toList, ["ओ".toList, "औ".toList]),
   ("ोऽति".toList, ["ओ".toList]),
   ("येति".toList, ["य".toList, "या".toList, "ाय".toList]),
   ("ेणेति".toList, ["ेण".toList]),
   ("ादिति".toList, ["ात्".toList]),
   ("स्येति".toList, ["स्य".toList]),
   ("मिति".toList, ["म्".toList, "ाम्".toList]),
   ("यामिति".toList, ["याम्".toList]),
   ("ौति".toList, ["औ".toList]),
   ("ोरिति".toList, ["योः".toList]),
   ("भ्यामिति".toList, ["भ्याम्".toList]),
   ("ानिति".toList, ["ान्".toList]),
   ("ैरिति".toList, ["ैः".toList]),
   ("भिरिति".toList, ["भिः".toList]),
   ("ेभ्यरिति".toList, ["ेभ्यः".toList]),
   ("ानामिति".toList, ["ानाम्".toList]),
   ("णामिति".toList, ["णाम्".toList]),
   ("ष्विति".toList, ["ेषु".toList]),
   ("स्विति".toList, ["सु".toList]),
   ("यारिति".toList, ["याः".toList]),
   ("ाः इति".toList, ["ाः".toList]),
   ("ा इति".toList, ["ाः".toList])
  ]

/-- The forward iti-quotation map of `createItiSandhiMap`
(sanskrit-search.js lines 76-123) as the effective JavaScript object: the
source repeats the key `औ` (first with value `ावीति`, later with value
`ौति`), and a JavaScript object literal keeps the first key position with
the last value, so the single `औ` entry below carries `ौति`. -/
def forwardEntries : List (List Char × List Char) :=
  [
   ([], "ेति".toList),
   ("अ".toList, "ेति".toList),
   ("आ".toList, "ेति".toList),
   ("इ".toList, "ीति".toList),
   ("ई".toList, "ीति".toList),
   ("उ".toList, "वीति".toList),
   ("ऊ".toList, "वीति".toList),
   ("ऋ".toList, "रिति".toList),
   ("ॠ".toList, "रिति".toList),
   ("ऌ".toList, "लिति".toList),
   ("ॡ".toList, "लिति".toList),
   ("ए".toList, "ैति".toList),
   ("े".toList, "ैति".toList),
   ("ऐ".toList, "ैति".toList),
   ("ै".toList, "ैति".toList),
   ("ओ".toList, "ावीति".toList),
   ("औ".toList, "ौति".toList),
   ("य".toList, "येति".toList),
   ("या".toList, "येति".toList),
   ("ाय".toList, "ायेति".toList),
   ("ेण".toList, "ेणेति".toList),
   ("ात्".toList, "ादिति".toList),
   ("स्य".toList, "स्येति".toList),
   ("म्".toList, "मिति".toList),
   ("ाम्".toList, "मिति".toList),
   ("याम्".toList, "यामिति".toList),
   ("योः".toList, "ोरिति".toList),
   ("भ्याम्".toList, "भ्यामिति".toList),
   ("ान्".toList, "ानिति".toList),
   ("ैः".toList, "ैरिति".toList),
   ("भिः".toList, "भिरिति".toList),
   ("ेभ्यः".toList, "ेभ्यरिति".toList),
   ("ानाम्".toList, "ानामिति".toList),
   ("णाम्".toList, "णामिति".toList),
   ("ेषु".toList, "ष्विति".toList),
   ("सु".toList, "स्विति".toList),
   ("याः".toList, "यारिति".toList),
   ("ाः".toList, "ाः इति".toList)
  ]

/-- A `{text, pattern}` variation produced by `generatePratikaVariations`. -/
structure PGVariation where
  text : List Char
  pattern : String
deriving DecidableEq, Repr

/-- Insert into a list sorted by descending length, after entries of equal
length (one step of a stable `sort((a, b) => b.length - a.length)`). -/
def insertByLenDesc (x : List Char) : List (List Char) → List (List Char)
  | [] => [x]
  | y :: rest =>
    if y.length < x.length then x :: y :: rest
    else y :: insertByLenDesc x rest

/-- Stable sort of string keys by descending length, as
`Object.keys(map).sort((a, b) => b.length - a.length)`. -/
def sortByLenDesc (l : List (List Char)) : List (List Char) :=
  l.foldl (fun acc x => insertByLenDesc x acc) []

/-- `generatePratikaVariations` (sanskrit-search.js lines 572-624):
reverse patterns first (checking every suffix match, longest first,
without stopping at the first hit), then forward patterns unless the term
already ends in ति; the forward empty-key entry applies only when the
final character carries no explicit mark. -/
def generatePratikaVariations (searchTerm : List Char) : List PGVariation :=
  let revPart :=
    ((sortByLenDesc (reverseEntries.map (·.1))).map (fun p =>
      if p.isSuffixOf searchTerm then
        match lookupAssoc reverseEntries p with
        | some endings =>
          endings.map (fun e =>
            (⟨JSStr.cutLast searchTerm p.length ++ e,
              String.mk p ++ "->" ++
                (if e.isEmpty then "stem" else String.mk e)⟩ : PGVariation))
        | none => []
      else [])).flatten
  let fwdPart :=
    if ("ति".toList).isSuffixOf searchTerm then []
    else
      ((sortByLenDesc (forwardEntries.map (·.1))).map (fun e =>
        match lookupAssoc forwardEntries e with
        | some itiSuffix =>
          if e.isEmpty then
            match searchTerm.getLast? with
            | some c =>
              if !(sanskritEndingChars.contains c) then
                [(⟨searchTerm ++ itiSuffix,
                   "stem->" ++ String.mk itiSuffix⟩ : PGVariation)]
              else []
            | none => []
          else if e.isSuffixOf searchTerm then
            [(⟨JSStr.cutLast searchTerm e.length ++ itiSuffix,
               String.mk e ++ "->" ++ String.mk itiSuffix⟩ : PGVariation)]
          else []
        | none => [])).flatten
  revPart ++ fwdPart

end SanskritSearch

/-! ## Shared abbreviations for the verification theorems -/

open PratikaIdentifier SanskritSearch

/-- The configuration produced by `new SanskritSearch()` with no options. -/
def defaultConfig : SSConfig := mkConfig ⟨none, none, none, none, none⟩

/-! ## C10: falsy configuration values are replaced by the defaults -/

/-- C10: a constructor option explicitly set to `0` is falsy in
JavaScript, so `config.contextLength || 50` and `config.maxResults || 100`
silently replace it with the documented defaults. -/
theorem c10_zero_config_defaults :
    ∀ o : SSOptions,
      (o.contextLength = some 0 → (mkConfig o).contextLength = 50) ∧
      (o.maxResults = some 0 → (mkConfig o).maxResults = 100) := by
  intro o
  constructor
  · intro h
    simp [mkConfig, orNat, h]
  · intro h
    simp [mkConfig, orNat, h]

/-- Witness for C10 at the configuration `{contextLength: 0, maxResults: 0}`. -/
theorem c10_zero_config_defaults_witness :
    (mkConfig ⟨none, none, some 0, none, some 0⟩).contextLength = 50 ∧
      (mkConfig ⟨none, none, some 0, none, some 0⟩).maxResults = 100 :=
  ⟨(c10_zero_config_defaults ⟨none, none, some 0, none, some 0⟩).1 rfl,
   (c10_zero_config_defaults ⟨none, none, some 0, none, some 0⟩).2 rfl⟩

/-! ## C2: the रिति rule shadows the 8-grapheme plural rules -/

/-- C2 (code bug): the suffix cascade checks `रिति` before `येभ्यरिति` and
`ेभ्यरिति`, so for inputs ending in those 8-grapheme plural suffixes the
4-grapheme `रिति` visarga rule fires: the classification carries rule
identifier `riti-visarga` with confidence 88, not `ebhyariti`/`yebhyariti`
with confidence 95 as the ordering comment in the source and the
specification prescribe. -/
theorem c2_riti_shadows_plural_rules :
    ews ("रामेभ्यरिति".toList) "ेभ्यरिति" = true ∧
    ews ("रामयेभ्यरिति".toList) "येभ्यरिति" = true ∧
    (identifyPratika (JSValue.vStr ("रामेभ्यरिति".toList))).map
        (fun r => (r.isPratika, r.pattern, r.confidence)) =
      some (true, some "riti-visarga", 88) ∧
    (identifyPratika (JSValue.vStr ("रामयेभ्यरिति".toList))).map
        (fun r => (r.isPratika, r.pattern, r.confidence)) =
      some (true, some "riti-visarga", 88) := by
  decide

/-! ## C1: the stem-length invariant and its space-separated exception -/

/-- C1 counterexample: on the space-separated branch `identifyPratika`
accepts `क इति` as a pratika with the one-character stem `क`, so the
claimed invariant `stem.length >= 2` whenever `isPratika = true` fails on
that classification path. -/
theorem c1_counterexample :
    (identifyPratika (JSValue.vStr ("क इति".toList))).map
        (fun r => (r.isPratika, r.pattern, r.stem)) =
      some (true, some "space-iti-inherent-a", some ("क".toList)) ∧
    ("क".toList).length < 2 := by
  decide

/-- C1 amended: whenever `identifyPratika` classifies positively through
the suffix-rule cascade (every rule other than the space-separated
`space-iti-inherent-a` branch), the reconstructed stem has at least two
characters; and `identifyPratika("भूति")` is rejected.  The space-separated
branch performs no stem-length validation (see `c1_counterexample`). -/
theorem c1_stem_length_amended :
    (∀ (v : JSValue) (r : PratikaResult), identifyPratika v = some r →
        r.isPratika = true → r.pattern ≠ some "space-iti-inherent-a" →
        ∃ s, r.stem = some s ∧ 2 ≤ s.length) ∧
    (identifyPratika (JSValue.vStr ("भूति".toList))).map (fun r => r.isPratika) =
      some false := by
  constructor
  · intro v r h hp hsp
    cases v with
    | vNull => simp [identifyPratika] at h
    | vOther b => simp [identifyPratika] at h
    | vStr s =>
      simp only [identifyPratika] at h
      by_cases hs : s.isEmpty
      · simp [hs] at h
      · have h' : identifyPratikaStr s = r := by
          rw [if_neg hs] at h
          exact Option.some.inj h
        simp only [identifyPratikaStr] at h'
        split at h'
        · rw [← h'] at hp
          simp at hp
        · split at h'
          · split at h'
            · rw [← h'] at hp
              simp at hp
            · rw [← h'] at hsp
              simp at hsp
          · rcases hE : chainSelect (jsTrim s) with ⟨w, p, d, c⟩
            rw [hE] at h'
            have h2 : finishChain (jsTrim s) w p d c = r := h'
            unfold finishChain at h2
            split at h2
            · rw [← h2] at hp
              simp at hp
            · rename_i hlen
              rw [← h2]
              exact ⟨w, rfl, by omega⟩
  · decide

/-- Witness for C1 amended at the input `रामेति` (rule `eti`, stem `राम`). -/
theorem c1_stem_length_amended_witness :
    ∃ s, (identifyPratikaStr ("रामेति".toList)).stem = some s ∧ 2 ≤ s.length :=
  c1_stem_length_amended.1 (JSValue.vStr ("रामेति".toList))
    (identifyPratikaStr ("रामेति".toList)) (by decide) (by decide) (by decide)

/-! ## Trimming lemmas used by the space-separated iti rule -/

/-- The head surviving `dropWhile` fails the predicate. -/
theorem dropWhile_head_false {p : Char → Bool} :
    ∀ (l : List Char) {c : Char} {rest : List Char},
      l.dropWhile p = c :: rest → p c = false := by
  intro l
  induction l with
  | nil => intro c rest h; simp at h
  | cons a l ih =>
    intro c rest h
    rw [List.dropWhile_cons] at h
    by_cases hp : p a = true
    · rw [if_pos hp] at h
      exact ih h
    · rw [if_neg hp] at h
      injection h with h1 _
      rw [← h1]
      exact Bool.eq_false_iff.mpr hp

/-- `dropWhile` removes a prefix. -/
theorem dropWhile_isSuffix (p : Char → Bool) :
    ∀ l : List Char, ∃ u, u ++ l.dropWhile p = l := by
  intro l
  induction l with
  | nil => exact ⟨[], rfl⟩
  | cons a l ih =>
    by_cases hp : p a = true
    · obtain ⟨u, hu⟩ := ih
      exact ⟨a :: u, by rw [List.dropWhile_cons, if_pos hp, List.cons_append, hu]⟩
    · exact ⟨[], by rw [List.dropWhile_cons, if_neg hp, List.nil_append]⟩

/-- A nonempty trimmed string starts with a non-whitespace character. -/
theorem jsTrim_head (x : List Char) {c : Char} {rest : List Char}
    (h : jsTrim x = c :: rest) : isJsWs c = false := by
  obtain ⟨u, hu⟩ := dropWhile_isSuffix isJsWs (x.dropWhile isJsWs).reverse
  rw [jsTrim] at h
  have h3 := congrArg List.reverse hu
  rw [List.reverse_append, List.reverse_reverse, h] at h3
  refine @dropWhile_head_false isJsWs x c (rest ++ u.reverse) ?_
  rw [← h3, List.cons_append]

/-- `dropWhile` jumps over a block all of whose elements satisfy `p`. -/
theorem dropWhile_append_all {p : Char → Bool} :
    ∀ (a b : List Char), (∀ x ∈ a, p x = true) →
      (a ++ b).dropWhile p = b.dropWhile p := by
  intro a
  induction a with
  | nil => simp
  | cons x a ih =>
    intro b hall
    rw [List.cons_append, List.dropWhile_cons, if_pos (hall x (by simp))]
    exact ih b (fun y hy => hall y (by simp [hy]))

/-- `dropWhile` keeps a list whose head fails the predicate. -/
theorem dropWhile_cons_false {p : Char → Bool} {c : Char} (l : List Char)
    (h : p c = false) : (c :: l).dropWhile p = c :: l := by
  rw [List.dropWhile_cons, if_neg (by simp [h])]

/-- Trimming `word ++ whitespace` yields `word` when the word neither
starts nor ends with whitespace. -/
theorem jsTrim_of_clean (w ws : List Char) (hw : w ≠ [])
    (hhead : ∀ c rest, w = c :: rest → isJsWs c = false)
    (hlast : ∀ c, w.getLast? = some c → isJsWs c = false)
    (hws : ∀ c ∈ ws, isJsWs c = true) :
    jsTrim (w ++ ws) = w := by
  cases w with
  | nil => exact absurd rfl hw
  | cons c w' =>
    rw [jsTrim, List.cons_append, dropWhile_cons_false _ (hhead c w' rfl),
      ← List.cons_append, List.reverse_append,
      dropWhile_append_all _ _ (fun x hx => hws x (List.mem_reverse.mp hx))]
    rcases hr : (c :: w').reverse with _ | ⟨d, rest⟩
    · simp at hr
    · have hd : (c :: w').getLast? = some d := by
        rw [← List.head?_reverse, hr]
        rfl
      rw [dropWhile_cons_false _ (hlast d hd), ← hr, List.reverse_reverse]

/-- Dropping the final cluster of `a ++ b` leaves `a`. -/
theorem cutLast_append (a b : List Char) : cutLast (a ++ b) b.length = a := by
  unfold cutLast
  rw [List.length_append, Nat.add_sub_cancel]
  exact List.take_left a b

/-! ## C9: the space-separated quotation rule -/

/-- C9: for every input whose trimmed form is `<word> <whitespace> इति`
with a nonempty, whitespace-clean word that ends with neither an explicit
vowel sign nor a visarga/anusvara/candrabindu mark, `identifyPratika`
classifies it as a pratika with confidence 75, rule identifier
`space-iti-inherent-a`, and stem equal to the word. -/
theorem c9_space_iti_rule (text w ws : List Char)
    (hdecomp : jsTrim text = w ++ ws ++ ("इति".toList))
    (hw : w ≠ []) (hws : ws ≠ [])
    (hwsall : ∀ c ∈ ws, isJsWs c = true)
    (hlast : ∀ c, w.getLast? = some c → isJsWs c = false)
    (hvm : endsWithVowelMark w = false)
    (hva : endsWithVisargaOrAnusvara w = false) :
    identifyPratika (JSValue.vStr text) =
      some ⟨true, w ++ ws ++ ("इति".toList), some w, some "space-iti-inherent-a",
        "Space + इति after consonant (inherent अ sandhi)",
        some (" इति".toList), 75⟩ := by
  have hiti : ("इति".toList) = ['इ', 'त', 'ि'] := by decide
  have htext : text ≠ [] := by
    intro hnil
    rw [hnil] at hdecomp
    have : w ++ ws ++ ("इति".toList) = [] := by
      rw [← hdecomp]
      rfl
    rcases w with _ | _
    · exact hw rfl
    · simp at this
  have hhead : ∀ c rest, w = c :: rest → isJsWs c = false := by
    intro c rest hcr
    refine @jsTrim_head text c (rest ++ (ws ++ ("इति".toList))) ?_
    rw [hdecomp, hcr]
    simp
  have hwtrim : jsTrim (w ++ ws) = w := jsTrim_of_clean w ws hw hhead hlast hwsall
  have hcut : cutLast (w ++ ws ++ ("इति".toList)) 3 = w ++ ws := by
    have h3 : ("इति".toList).length = 3 := by decide
    rw [← h3]
    exact cutLast_append (w ++ ws) _
  have hB : endsWithSpaceIti (w ++ ws ++ ("इति".toList)) = true := by
    rcases hwsr : ws.reverse with _ | ⟨c, rest⟩
    · simp at hwsr
      exact absurd hwsr hws
    · have hc : isJsWs c = true := hwsall c (by
        have hcmem : c ∈ ws.reverse := by
          rw [hwsr]
          simp
        exact List.mem_reverse.mp hcmem)
      have hrev : (w ++ ws ++ ("इति".toList)).reverse
          = 'ि' :: 'त' :: 'इ' :: c :: (rest ++ w.reverse) := by
        rw [hiti]
        simp [List.reverse_append, hwsr]
      unfold endsWithSpaceIti
      rw [hrev]
      exact hc
  have hisE : text.isEmpty = false := by
    rcases text with _ | _
    · exact absurd rfl htext
    · rfl
  simp only [identifyPratika, hisE, Bool.false_eq_true, if_false]
  congr 1
  simp only [identifyPratikaStr]
  rw [hdecomp, hB, hcut, hwtrim, hvm, hva]
  simp
  decide

/-- Witness for C9 at the input `कृपालव इति` (the example of the source's
own comment). -/
theorem c9_space_iti_rule_witness :
    identifyPratika (JSValue.vStr ("कृपालव इति".toList)) =
      some ⟨true, ("कृपालव".toList) ++ [' '] ++ ("इति".toList),
        some ("कृपालव".toList), some "space-iti-inherent-a",
        "Space + इति after consonant (inherent अ sandhi)",
        some (" इति".toList), 75⟩ :=
  c9_space_iti_rule ("कृपालव इति".toList) ("कृपालव".toList) [' ']
    (by decide) (by decide) (by decide) (by decide) (by decide)
    (by decide) (by decide)

/-! ## C4: behaviour on invalid input -/

/-- C4 counterexample: on the empty string `identifyPratika` returns
`null`, not a structured object with `isPratika: false`; and `search`
applied to a truthy non-string term reaches `.normalize` and throws a
`TypeError` rather than returning `{matches: [], count: 0}`. -/
theorem c4_counterexample :
    identifyPratika (JSValue.vStr []) = none ∧
    searchJS defaultConfig true (JSValue.vOther true) (JSValue.vStr ("अ".toList)) =
      Except.error "TypeError: normalize is not a function" :=
  ⟨rfl, rfl⟩

/-- C4 amended: for `null`, non-string, and empty-string arguments
`identifyPratika` returns `null` (not an `isPratika: false` object), and
`search` returns `{matches: [], count: 0}` whenever either argument is
falsy (`null`, `''`, or a falsy non-string); a truthy non-string argument
to `search` is the one invalid input that is not handled and raises a
`TypeError`. -/
theorem c4_invalid_input_amended :
    (∀ v : JSValue, (v.truthy = false ∨ ∀ s, v ≠ JSValue.vStr s) →
      identifyPratika v = none) ∧
    (∀ (cfg : SSConfig) (sand : Bool) (tv xv : JSValue),
      tv.truthy = false ∨ xv.truthy = false →
      searchJS cfg sand tv xv = Except.ok ⟨[], 0, none⟩) ∧
    (∀ (cfg : SSConfig) (sand : Bool) (xv : JSValue), xv.truthy = true →
      searchJS cfg sand (JSValue.vOther true) xv =
        Except.error "TypeError: normalize is not a function") := by
  refine ⟨?_, ?_, ?_⟩
  · intro v hv
    cases v with
    | vNull => rfl
    | vOther b => rfl
    | vStr s =>
      rcases hv with hv | hv
      · have hs : s.isEmpty = true := by
          simpa [JSValue.truthy] using hv
        simp [identifyPratika, hs]
      · exact absurd rfl (hv s)
  · intro cfg sand tv xv h
    have : (!tv.truthy || !xv.truthy) = true := by
      rcases h with h | h <;> simp [h]
    simp [searchJS, this]
  · intro cfg sand xv hx
    cases xv with
    | vNull => simp [JSValue.truthy] at hx
    | vStr s =>
      have hs : s.isEmpty = false := by simpa [JSValue.truthy] using hx
      simp [searchJS, JSValue.truthy, hs]
    | vOther b =>
      have hb : b = true := by simpa [JSValue.truthy] using hx
      subst hb
      simp [searchJS, JSValue.truthy]

/-- Witness for C4 amended at `null` and at an empty term. -/
theorem c4_invalid_input_amended_witness :
    identifyPratika JSValue.vNull = none ∧
    searchJS defaultConfig true (JSValue.vStr []) (JSValue.vStr ("अ".toList)) =
      Except.ok ⟨[], 0, none⟩ :=
  ⟨c4_invalid_input_amended.1 JSValue.vNull (Or.inl rfl),
   c4_invalid_input_amended.2.1 defaultConfig true (JSValue.vStr [])
     (JSValue.vStr ("अ".toList)) (Or.inl (by decide))⟩

/-! ## C3: round-trip of the iti-ending correspondence map -/

/-- Membership is invariant under the length-descending insertion. -/
theorem mem_insertByLenDesc {x y : List Char} :
    ∀ l : List (List Char), (x ∈ insertByLenDesc y l ↔ x = y ∨ x ∈ l) := by
  intro l
  induction l with
  | nil => simp [insertByLenDesc]
  | cons z rest ih =>
    by_cases h : z.length < y.length
    · simp [insertByLenDesc, h]
    · simp only [insertByLenDesc, if_neg h, List.mem_cons, ih]
      tauto

/-- Membership is invariant under the stable length sort. -/
theorem mem_sortByLenDesc {x : List Char} (l : List (List Char)) :
    x ∈ sortByLenDesc l ↔ x ∈ l := by
  suffices h : ∀ (l acc : List (List Char)),
      (x ∈ l.foldl (fun acc y => insertByLenDesc y acc) acc ↔ x ∈ acc ∨ x ∈ l) by
    simpa using h l []
  intro l
  induction l with
  | nil => simp
  | cons y rest ih =>
    intro acc
    rw [List.foldl_cons, ih, mem_insertByLenDesc]
    simp
    tauto

/-- Any ending reachable through a matching reverse pattern appears among
the texts produced by `generatePratikaVariations`. -/
theorem pgvariation_of_reverse (q p e : List Char) (ends : List (List Char))
    (hp : p ∈ reverseEntries.map (fun pr => pr.1))
    (hlk : lookupAssoc reverseEntries p = some ends)
    (hmem : e ∈ ends)
    (hsuf : p.isSuffixOf q = true) :
    ∃ pv ∈ generatePratikaVariations q, pv.text = cutLast q p.length ++ e := by
  refine ⟨⟨cutLast q p.length ++ e,
    String.mk p ++ "->" ++ (if e.isEmpty then "stem" else String.mk e)⟩, ?_, rfl⟩
  simp only [generatePratikaVariations]
  apply List.mem_append_left
  rw [List.mem_flatten]
  refine ⟨(List.map (fun x =>
    (⟨cutLast q p.length ++ x,
      String.mk p ++ "->" ++ (if x.isEmpty then "stem" else String.mk x)⟩ :
        PGVariation)) ends), ?_, ?_⟩
  · rw [List.mem_map]
    refine ⟨p, (mem_sortByLenDesc _).mpr hp, ?_⟩
    rw [hsuf, hlk]
    simp
  · rw [List.mem_map]
    exact ⟨e, hmem, rfl⟩

/-- Certificate that the forward entry `(e, s)` round-trips: some reverse
pattern matching the tail of the quoted suffix `s` reconstructs exactly
the base ending `e`. -/
def entryCert (e s : List Char) : Bool :=
  (reverseEntries.map (fun pr => pr.1)).any (fun p =>
    p.isSuffixOf s &&
      (match lookupAssoc reverseEntries p with
       | some ends => ends.any (fun x => cutLast s p.length ++ x == e)
       | none => false))

/-- Unpack an `entryCert` into its components. -/
theorem entryCert_spec {e s : List Char} (h : entryCert e s = true) :
    ∃ p ends x, p ∈ reverseEntries.map (fun pr => pr.1) ∧
      lookupAssoc reverseEntries p = some ends ∧ x ∈ ends ∧
      p.isSuffixOf s = true ∧ cutLast s p.length ++ x = e := by
  unfold entryCert at h
  rw [List.any_eq_true] at h
  obtain ⟨p, hp, hrest⟩ := h
  rw [Bool.and_eq_true] at hrest
  obtain ⟨hsuf, hm⟩ := hrest
  rcases hlk : lookupAssoc reverseEntries p with _ | ends
  · rw [hlk] at hm
    simp at hm
  · rw [hlk] at hm
    rw [List.any_eq_true] at hm
    obtain ⟨x, hx, heq⟩ := hm
    exact ⟨p, ends, x, hp, hlk, hx, hsuf, by simpa using heq⟩

/-- Every forward entry other than `े → ैति` and `ऐ → ैति` carries a
round-trip certificate. -/
theorem forwardEntries_cert :
    ∀ es ∈ forwardEntries, es.1 = ("े".toList) ∨ es.1 = ("ऐ".toList) ∨
      entryCert es.1 es.2 = true := by
  decide

/-- Dropping a final cluster that lies inside the right summand. -/
theorem cutLast_append_of_le (a b : List Char) (n : Nat) (h : n ≤ b.length) :
    cutLast (a ++ b) n = a ++ cutLast b n := by
  unfold cutLast
  rw [List.length_append, Nat.add_sub_assoc h, List.take_append]

/-- C3 counterexample: the forward entry `े → ैति` does not round-trip.
For the stem `रामे` (ending `े`), the quoted form is `रामैति`, but the
variation texts generated from it are `रामए` and `रामै` only — the
original stem is absent because `ैति`'s reverse list `['ए', 'ै']` does not
contain `े`. -/
theorem c3_counterexample :
    (("े".toList, "ैति".toList) ∈ forwardEntries) ∧
    ("े".toList).isSuffixOf ("रामे".toList) = true ∧
    cutLast ("रामे".toList) 1 ++ ("ैति".toList) = ("रामैति".toList) ∧
    ("रामे".toList) ∉ (generatePratikaVariations ("रामैति".toList)).map
      (fun pv => pv.text) := by
  decide

/-- C3 amended: the round-trip holds for every entry of the forward map
except `े → ैति` and `ऐ → ैति`: for any stem `w` ending in the entry's
base ending, quoting `w` with the entry's iti-suffix and expanding through
`generatePratikaVariations` yields a candidate list containing `w`.  The
two excluded entries map to `ैति`, whose reverse list `['ए', 'ै']` lacks
them (see `c3_counterexample`). -/
theorem c3_roundtrip_amended :
    ∀ es ∈ forwardEntries, es.1 ≠ ("े".toList) → es.1 ≠ ("ऐ".toList) →
      ∀ w : List Char, es.1.isSuffixOf w = true →
        ∃ pv ∈ generatePratikaVariations (cutLast w es.1.length ++ es.2),
          pv.text = w := by
  intro es hmem h1 h2 w hsuf
  obtain ⟨pre, hpre⟩ : ∃ pre, pre ++ es.1 = w := by
    have := List.isSuffixOf_iff_suffix.mp hsuf
    exact this
  have hcutw : cutLast w es.1.length = pre := by
    rw [← hpre]
    exact cutLast_append pre es.1
  rcases forwardEntries_cert es hmem with hd | hd | hd
  · exact absurd hd h1
  · exact absurd hd h2
  · obtain ⟨p, ends, x, hp, hlk, hx, hsufp, heq⟩ := entryCert_spec hd
    have hple : p.length ≤ es.2.length :=
      (List.isSuffixOf_iff_suffix.mp hsufp).length_le
    have hsufq : p.isSuffixOf (cutLast w es.1.length ++ es.2) = true := by
      rw [List.isSuffixOf_iff_suffix]
      obtain ⟨u, hu⟩ := List.isSuffixOf_iff_suffix.mp hsufp
      exact ⟨cutLast w es.1.length ++ u, by rw [List.append_assoc, hu]⟩
    obtain ⟨pv, hpv, htext⟩ :=
      pgvariation_of_reverse (cutLast w es.1.length ++ es.2) p x ends hp hlk hx hsufq
    refine ⟨pv, hpv, ?_⟩
    rw [htext, hcutw, cutLast_append_of_le pre es.2 p.length hple,
      List.append_assoc, heq, hpre]

/-- Witness for C3 amended at the genitive entry `स्य → स्येति` and the
stem `ईश्वरस्य`. -/
theorem c3_roundtrip_amended_witness :
    ∃ pv ∈ generatePratikaVariations
        (cutLast ("ईश्वरस्य".toList) ("स्य".toList).length ++ ("स्येति".toList)),
      pv.text = ("ईश्वरस्य".toList) :=
  c3_roundtrip_amended ("स्य".toList, "स्येति".toList) (by decide) (by decide)
    (by decide) ("ईश्वरस्य".toList) (by decide)

/-! ## C8: fuzzy-mode boundary extension -/

/-- Every match emitted by the direct-search loop sits at a natural
position, is tagged `direct`, and has exactly the length prescribed by the
extension rule (no extension when the term ends in a mark, otherwise
extension over the consecutive marks following the hit). -/
theorem directLoop_spec (cl : Nat) (term text searchStr textStr : List Char)
    (endsMark : Bool) :
    ∀ (fuel pos : Nat) (m : SearchMatch),
      m ∈ directLoop cl term text searchStr textStr endsMark pos fuel →
      ∃ p : Nat, m.position = (p : Int) ∧ m.mtype = "direct" ∧
        m.length = (if endsMark then term.length
          else term.length + ((text.drop (p + term.length)).takeWhile
            (fun c => sanskritEndingChars.contains c)).length) := by
  intro fuel
  induction fuel with
  | zero =>
    intro pos m h
    simp [directLoop] at h
  | succ fuel ih =>
    intro pos m h
    rw [directLoop] at h
    rcases hf : JSStr.findFrom textStr searchStr pos with _ | p
    · rw [hf] at h
      simp at h
    · rw [hf] at h
      rcases List.mem_cons.mp h with h | h
      · exact ⟨p, by rw [h], by rw [h], by rw [h]⟩
      · exact ih _ m h

/-- C8: in `directSearch`, a term ending in a Sanskrit mark is never
extended, a term without a trailing mark is extended rightward over
exactly the consecutive trailing-mark characters of the text after the
hit; and concretely, fuzzy-mode `search("देव", "देवोऽसुरेभ्यो बलमददात्")`
returns the single direct match `"देवो"` at position 0 with length 4. -/
theorem c8_boundary_extension :
    (∀ (cfg : SSConfig) (term text : List Char) (m : SearchMatch),
      m ∈ directSearch cfg term text →
      ∃ p : Nat, m.position = (p : Int) ∧
        ((∃ c, term.getLast? = some c ∧ sanskritEndingChars.contains c = true) →
          m.length = term.length) ∧
        ((∀ c, term.getLast? = some c → sanskritEndingChars.contains c = false) →
          m.length = term.length + ((text.drop (p + term.length)).takeWhile
            (fun c => sanskritEndingChars.contains c)).length)) ∧
    (search defaultConfig true ("देव".toList)
        ("देवोऽसुरेभ्यो बलमददात्".toList)).matchesList.map
        (fun m => (m.position, m.length, m.matchedText, m.mtype)) =
      [((0 : Int), 4, "देवो".toList, "direct")] := by
  constructor
  · intro cfg term text m h
    rw [directSearch] at h
    obtain ⟨p, hpos, _, hlen⟩ :=
      directLoop_spec cfg.contextLength term text
        (if cfg.caseSensitive then term else jsToLower term)
        (if cfg.caseSensitive then text else jsToLower text)
        (match term.getLast? with
          | some c => sanskritEndingChars.contains c
          | none => false) _ _ m h
    refine ⟨p, hpos, ?_, ?_⟩
    · rintro ⟨c, hc, hmark⟩
      rw [hc] at hlen
      have hred : (match some c with
          | some c => sanskritEndingChars.contains c
          | none => false) = sanskritEndingChars.contains c := rfl
      rw [hred, hmark] at hlen
      rw [hlen, if_pos rfl]
    · intro hnone
      rcases hl : term.getLast? with _ | c
      · rw [hl] at hlen
        have hred : (match (none : Option Char) with
            | some c => sanskritEndingChars.contains c
            | none => false) = false := rfl
        rw [hred] at hlen
        rw [hlen, if_neg (by simp)]
      · rw [hl] at hlen
        have hred : (match some c with
            | some c => sanskritEndingChars.contains c
            | none => false) = sanskritEndingChars.contains c := rfl
        rw [hred, hnone c hl] at hlen
        rw [hlen, if_neg (by simp)]
  · decide

/-- A placeholder match used only as the default of list indexing in the
witness below. -/
def nullMatch : SearchMatch :=
  ⟨0, 0, [], ⟨[], [], [], []⟩, "", none, none, none, none⟩

/-- The single direct match of the C8 scenario. -/
def c8Match : SearchMatch :=
  (directSearch defaultConfig ("देव".toList)
    ("देवोऽसुरेभ्यो बलमददात्".toList)).getD 0 nullMatch

/-- Witness for C8 applying the extension property to the scenario match. -/
theorem c8_boundary_extension_witness :
    ∃ p : Nat, c8Match.position = (p : Int) ∧
      ((∃ c, ("देव".toList).getLast? = some c ∧
          sanskritEndingChars.contains c = true) →
        c8Match.length = ("देव".toList).length) ∧
      ((∀ c, ("देव".toList).getLast? = some c →
          sanskritEndingChars.contains c = false) →
        c8Match.length = ("देव".toList).length +
          ((("देवोऽसुरेभ्यो बलमददात्".toList).drop
            (p + ("देव".toList).length)).takeWhile
            (fun c => sanskritEndingChars.contains c)).length) :=
  c8_boundary_extension.1 defaultConfig ("देव".toList)
    ("देवोऽसुरेभ्यो बलमददात्".toList) c8Match (by decide)

/-! ## C7: ordering, deduplication and capping of search results -/

/-- Positions in a list of matches are pairwise distinct. -/
def distinctPos (l : List SearchMatch) : Prop :=
  l.Pairwise (fun a b => a.position ≠ b.position)

/-- `(position, length)` pairs in a list of matches are pairwise distinct. -/
def distinctPairs (l : List SearchMatch) : Prop :=
  l.Pairwise (fun a b => ¬(a.position = b.position ∧ a.length = b.length))

/-- Distinct positions give distinct `(position, length)` pairs. -/
theorem distinctPairs_of_distinctPos {l : List SearchMatch}
    (h : distinctPos l) : distinctPairs l :=
  h.imp (fun hne hpair => hne hpair.1)

/-- The guarded push preserves position distinctness. -/
theorem pushByPos_distinctPos (acc : List SearchMatch) (m : SearchMatch)
    (h : distinctPos acc) : distinctPos (pushByPos acc m) := by
  rw [pushByPos]
  split
  · exact h
  · rename_i hany
    rw [distinctPos, List.pairwise_append]
    refine ⟨h, by simp, ?_⟩
    intro a ha b hb
    rw [List.mem_singleton] at hb
    subst hb
    intro heq
    exact hany (List.any_eq_true.mpr ⟨a, ha, by simp [heq]⟩)

/-- The boundary-scan loop preserves position distinctness. -/
theorem exactRegexLoop_distinctPos (cl : Nat) (text searchTerm v : List Char) :
    ∀ (fuel lastIndex : Nat) (acc : List SearchMatch), distinctPos acc →
      distinctPos (exactRegexLoop cl text searchTerm v lastIndex acc fuel) := by
  intro fuel
  induction fuel with
  | zero => intro lastIndex acc h; exact h
  | succ fuel ih =>
    intro lastIndex acc h
    rw [exactRegexLoop]
    rcases firstBM text v lastIndex with _ | ⟨i, lead, tail⟩
    · exact h
    · show distinctPos
        (if lead + v.length + tail = 0 then acc
         else exactRegexLoop cl text searchTerm v (i + (lead + v.length + tail))
           (pushByPos acc
             (mkExactMatch cl text searchTerm v (regexMatchStart text v i lead tail)))
           fuel)
      by_cases hz : lead + v.length + tail = 0
      · rw [if_pos hz]
        exact h
      · rw [if_neg hz]
        exact ih _ _ (pushByPos_distinctPos acc _ h)

/-- The fallback loop preserves position distinctness. -/
theorem exactFallbackLoop_distinctPos (cl : Nat) (text searchTerm v : List Char) :
    ∀ (fuel idx : Nat) (acc : List SearchMatch), distinctPos acc →
      distinctPos (exactFallbackLoop cl text searchTerm v idx acc fuel) := by
  intro fuel
  induction fuel with
  | zero => intro idx acc h; exact h
  | succ fuel ih =>
    intro idx acc h
    rw [exactFallbackLoop]
    rcases JSStr.findFrom text v idx with _ | p
    · exact h
    · show distinctPos
        (exactFallbackLoop cl text searchTerm v (p + v.length)
          (pushByPos acc (mkExactMatch cl text searchTerm v (p : Int))) fuel)
      exact ih _ _ (pushByPos_distinctPos acc _ h)

/-- Per-variant processing preserves position distinctness. -/
theorem processVariant_distinctPos (cl : Nat) (text searchTerm : List Char)
    (acc : List SearchMatch) (v : List Char) (h : distinctPos acc) :
    distinctPos (processVariant cl text searchTerm acc v) := by
  simp only [processVariant]
  split
  · exact exactFallbackLoop_distinctPos cl text searchTerm v _ _ _
      (exactRegexLoop_distinctPos cl text searchTerm v _ _ _ h)
  · exact exactRegexLoop_distinctPos cl text searchTerm v _ _ _ h

/-- The whole variant fold of `exactWordSearch` yields distinct positions. -/
theorem exactFold_distinctPos (cl : Nat) (text searchTerm : List Char) :
    ∀ (vs : List (List Char)) (acc : List SearchMatch), distinctPos acc →
      distinctPos (vs.foldl (processVariant cl text searchTerm) acc) := by
  intro vs
  induction vs with
  | nil => intro acc h; exact h
  | cons v vs ih =>
    intro acc h
    exact ih _ (processVariant_distinctPos cl text searchTerm acc v h)

/-- `indexOf` never returns a position before its start index. -/
theorem findFrom_ge {hay needle : List Char} {start p : Nat}
    (h : JSStr.findFrom hay needle start = some p) : start ≤ p := by
  rw [JSStr.findFrom] at h
  rcases hi : JSStr.idxOf needle (hay.drop start) with _ | i
  · rw [hi] at h
    simp at h
  · rw [hi] at h
    simp at h
    omega

/-- With a nonempty term the direct-search loop produces strictly
increasing positions, all at or after the starting cursor. -/
theorem directLoop_increasing (cl : Nat) (term text searchStr textStr : List Char)
    (endsMark : Bool) (hterm : term ≠ []) :
    ∀ (fuel pos : Nat),
      (directLoop cl term text searchStr textStr endsMark pos fuel).Pairwise
        (fun a b => a.position < b.position) ∧
      ∀ m ∈ directLoop cl term text searchStr textStr endsMark pos fuel,
        (pos : Int) ≤ m.position := by
  intro fuel
  induction fuel with
  | zero =>
    intro pos
    constructor
    · exact List.Pairwise.nil
    · intro m hm
      simp [directLoop] at hm
  | succ fuel ih =>
    intro pos
    rw [directLoop]
    rcases hf : JSStr.findFrom textStr searchStr pos with _ | p
    · exact ⟨List.Pairwise.nil, by intro m hm; simp at hm⟩
    · have hlen : 1 ≤ term.length := by
        rcases term with _ | _
        · exact absurd rfl hterm
        · simp
      have hge := findFrom_ge hf
      obtain ⟨ihp, ihge⟩ := ih (p + term.length)
      constructor
      · rw [List.pairwise_cons]
        refine ⟨?_, ihp⟩
        intro m hm
        have := ihge m hm
        show (p : Int) < m.position
        have hstep : (p : Int) + 1 ≤ (p + term.length : Nat) := by
          push_cast
          omega
        omega
      · intro m hm
        rcases List.mem_cons.mp hm with hm | hm
        · rw [hm]
          show (pos : Int) ≤ ((p : Nat) : Int)
          exact_mod_cast hge
        · have := ihge m hm
          have : ((p + term.length : Nat) : Int) ≤ m.position := this
          push_cast at this
          omega

/-- The merge push preserves `(position, length)` distinctness. -/
theorem pushByPosLen_distinctPairs (acc : List SearchMatch) (m : SearchMatch)
    (h : distinctPairs acc) : distinctPairs (pushByPosLen acc m) := by
  rw [pushByPosLen]
  split
  · exact h
  · rename_i hany
    rw [distinctPairs, List.pairwise_append]
    refine ⟨h, by simp, ?_⟩
    intro a ha b hb
    rw [List.mem_singleton] at hb
    subst hb
    intro ⟨h1, h2⟩
    rw [isDuplicate] at hany
    exact hany (List.any_eq_true.mpr ⟨a, ha, by simp [h1, h2]⟩)

/-- The whole fuzzy merge fold preserves `(position, length)`
distinctness. -/
theorem mergeFold_distinctPairs :
    ∀ (l acc : List SearchMatch), distinctPairs acc →
      distinctPairs (l.foldl pushByPosLen acc) := by
  intro l
  induction l with
  | nil => intro acc h; exact h
  | cons m l ih => intro acc h; exact ih _ (pushByPosLen_distinctPairs acc m h)

/-- Sorting by position preserves any symmetric pairwise property. -/
theorem sortByPosition_pairwise {R : SearchMatch → SearchMatch → Prop}
    (hs : ∀ a b, R a b → R b a) {l : List SearchMatch} (h : l.Pairwise R) :
    (sortByPosition l).Pairwise R :=
  ((List.perm_insertionSort posLe l).pairwise_iff
    (fun hab => hs _ _ hab)).mpr h

/-- The sorted fuzzy merge is sorted by position. -/
theorem sortByPosition_sorted (l : List SearchMatch) :
    List.Sorted posLe (sortByPosition l) :=
  List.sorted_insertionSort posLe l

/-- `mkConfig` never yields a zero `maxResults` (the default replaces both
absence and an explicit falsy `0`). -/
theorem mkConfig_maxResults_ne_zero (o : SSOptions) :
    (mkConfig o).maxResults ≠ 0 := by
  rcases o with ⟨cs, hc, cl, es, mr⟩
  rcases mr with _ | n
  · simp [mkConfig, orNat]
  · rcases n with _ | n
    · simp [mkConfig, orNat]
    · simp [mkConfig, orNat]

/-- The precision-mode result list has pairwise distinct positions. -/
theorem exactWordSearch_distinctPos (cfg : SSConfig) (term text : List Char) :
    distinctPos (exactWordSearch cfg term text).matchesList := by
  rw [exactWordSearch]
  split
  · exact List.Pairwise.nil
  · exact sortByPosition_pairwise (fun a b h hc => h hc.symm)
      (exactFold_distinctPos cfg.contextLength text term _ [] List.Pairwise.nil)

/-- The precision-mode result list is sorted by position. -/
theorem exactWordSearch_sorted (cfg : SSConfig) (term text : List Char) :
    List.Sorted posLe (exactWordSearch cfg term text).matchesList := by
  rw [exactWordSearch]
  split
  · exact List.Pairwise.nil
  · exact sortByPosition_sorted _

/-- The merged fuzzy list has pairwise distinct `(position, length)`
pairs whenever the term is nonempty. -/
theorem fuzzyMerged_distinctPairs (cfg : SSConfig) (sand : Bool)
    (term text : List Char) (hterm : term ≠ []) :
    distinctPairs (fuzzyMerged cfg sand term text) := by
  have hdirect : distinctPairs (directSearch cfg term text) := by
    apply distinctPairs_of_distinctPos
    apply (directLoop_increasing cfg.contextLength term text _ _ _ hterm _ _).1.imp
    intro a b hlt
    exact ne_of_lt hlt
  rw [fuzzyMerged]
  split
  · exact mergeFold_distinctPairs _ _ hdirect
  · exact hdirect

/-- C7 amended: `search` results are sorted by position and contain no two
entries with the same `(position, length)` pair in both modes, and they
are capped to `config.maxResults` in fuzzy mode; precision mode applies no
cap (see `c7_counterexample`). -/
theorem c7_sorted_dedup_capped_amended :
    ∀ (o : SSOptions) (sand : Bool) (term text : List Char),
      List.Sorted posLe (search (mkConfig o) sand term text).matchesList ∧
      distinctPairs (search (mkConfig o) sand term text).matchesList ∧
      (hasEndingMarker term = false →
        (search (mkConfig o) sand term text).matchesList.length ≤
          (mkConfig o).maxResults) := by
  intro o sand term text
  rw [search]
  split
  · exact ⟨List.Pairwise.nil, List.Pairwise.nil, fun _ => by simp⟩
  · rename_i hne
    split
    · rename_i hmark
      refine ⟨exactWordSearch_sorted _ _ _, ?_, ?_⟩
      · exact distinctPairs_of_distinctPos (exactWordSearch_distinctPos _ term text)
      · intro hmf
        rw [hmark] at hmf
        exact absurd hmf (by simp)
    · rename_i hmark
      have hterm : term ≠ [] := by
        intro hnil
        rw [hnil] at hne
        simp at hne
      refine ⟨?_, ?_, ?_⟩
      · show List.Sorted posLe (fuzzyCapped (mkConfig o) sand term text)
        rw [fuzzyCapped]
        split
        · exact (sortByPosition_sorted _).sublist (List.take_sublist _ _)
        · exact sortByPosition_sorted _
      · show distinctPairs (fuzzyCapped (mkConfig o) sand term text)
        rw [fuzzyCapped]
        have hsorted := sortByPosition_pairwise
          (fun a b h hc => h ⟨hc.1.symm, hc.2.symm⟩)
          (fuzzyMerged_distinctPairs (mkConfig o) sand term text hterm)
        split
        · exact hsorted.sublist (List.take_sublist _ _)
        · exact hsorted
      · intro _
        show (fuzzyCapped (mkConfig o) sand term text).length ≤ _
        rw [fuzzyCapped, if_pos (mkConfig_maxResults_ne_zero o)]
        exact List.length_take_le _ _

/-- C7 counterexample: with `maxResults: 1`, the precision-mode query
`रामं` over the text `रामं  रामं` (two spaces) returns two matches —
`exactWordSearch` never applies the `maxResults` cap, so the claimed cap
fails in precision mode. -/
theorem c7_counterexample :
    (mkConfig ⟨none, none, none, none, some 1⟩).maxResults = 1 ∧
    hasEndingMarker ("रामं".toList) = true ∧
    (search (mkConfig ⟨none, none, none, none, some 1⟩) true
        ("रामं".toList) ("रामं  रामं".toList)).matchesList.map
        (fun m => (m.position, m.length)) = [((0 : Int), 4), ((6 : Int), 4)] := by
  decide

/-- Witness for C7 amended at a fuzzy-mode query. -/
theorem c7_sorted_dedup_capped_amended_witness :
    List.Sorted posLe (search (mkConfig ⟨none, none, none, none, none⟩) true
        ("देव".toList) ("देवो देवा".toList)).matchesList ∧
    distinctPairs (search (mkConfig ⟨none, none, none, none, none⟩) true
        ("देव".toList) ("देवो देवा".toList)).matchesList ∧
    (search (mkConfig ⟨none, none, none, none, none⟩) true
        ("देव".toList) ("देवो देवा".toList)).matchesList.length ≤
      (mkConfig ⟨none, none, none, none, none⟩).maxResults :=
  ⟨(c7_sorted_dedup_capped_amended ⟨none, none, none, none, none⟩ true
      ("देव".toList) ("देवो देवा".toList)).1,
   (c7_sorted_dedup_capped_amended ⟨none, none, none, none, none⟩ true
      ("देव".toList) ("देवो देवा".toList)).2.1,
   (c7_sorted_dedup_capped_amended ⟨none, none, none, none, none⟩ true
      ("देव".toList) ("देवो देवा".toList)).2.2 (by decide)⟩

/-! ## C6: precision-mode matches are variant occurrences -/

/-- Replacement in the empty string yields the empty string. -/
theorem jsReplaceAllAux_nil (pat rep : List Char) :
    ∀ fuel, jsReplaceAllAux pat rep fuel [] = [] := by
  intro fuel
  cases fuel with
  | zero => rfl
  | succ fuel =>
    rw [jsReplaceAllAux]
    split
    · rename_i hcond
      exfalso
      rcases hcond with ⟨hne, hpre⟩
      cases pat with
      | nil => exact hne rfl
      | cons c p => simp [List.isPrefixOf] at hpre
    · rfl

/-- The last element of `a ++ x` is that of a nonempty `x`. -/
theorem getLast?_append_right (a x : List Char) (hx : x ≠ []) :
    (a ++ x).getLast? = x.getLast? := by
  rw [List.getLast?_append]
  rcases hg : x.getLast? with _ | v
  · rw [List.getLast?_eq_none_iff] at hg
    exact absurd hg hx
  · rfl

/-- Dropping a prefix does not change the last element. -/
theorem drop_getLast? (s : List Char) (n : Nat) (h : s.drop n ≠ []) :
    (s.drop n).getLast? = s.getLast? := by
  obtain ⟨u, hu⟩ := List.drop_suffix n s
  conv_rhs => rw [← hu]
  rw [getLast?_append_right u _ h]

/-- One-step unfolding of the replacement worker. -/
theorem jsReplaceAllAux_succ (pat rep : List Char) (fuel : Nat) (s : List Char) :
    jsReplaceAllAux pat rep (fuel + 1) s =
      if pat ≠ [] ∧ pat.isPrefixOf s then
        rep ++ jsReplaceAllAux pat rep fuel (s.drop pat.length)
      else
        match s with
        | [] => []
        | c :: rest => c :: jsReplaceAllAux pat rep fuel rest := by
  rw [jsReplaceAllAux.eq_def]

/-- A global replacement of a nonempty string by a nonempty replacement is
nonempty and ends either in the subject's or in the replacement's last
character. -/
theorem jsReplaceAllAux_getLast (pat rep : List Char) (hrep : rep ≠ []) :
    ∀ (fuel : Nat) (s : List Char), s ≠ [] →
      jsReplaceAllAux pat rep fuel s ≠ [] ∧
        ((jsReplaceAllAux pat rep fuel s).getLast? = s.getLast? ∨
         (jsReplaceAllAux pat rep fuel s).getLast? = rep.getLast?) := by
  intro fuel
  induction fuel with
  | zero => intro s hs; exact ⟨hs, Or.inl rfl⟩
  | succ fuel ih =>
    intro s hs
    rw [jsReplaceAllAux_succ]
    split
    · by_cases hdrop : s.drop pat.length = []
      · rw [hdrop, jsReplaceAllAux_nil, List.append_nil]
        exact ⟨hrep, Or.inr rfl⟩
      · obtain ⟨hne, hor⟩ := ih _ hdrop
        refine ⟨by simp [hne], ?_⟩
        rw [getLast?_append_right rep _ hne]
        rcases hor with hor | hor
        · rw [hor, drop_getLast? s pat.length hdrop]
          exact Or.inl rfl
        · exact Or.inr hor
    · cases s with
      | nil => exact absurd rfl hs
      | cons c rest =>
        show (c :: jsReplaceAllAux pat rep fuel rest) ≠ [] ∧
          ((c :: jsReplaceAllAux pat rep fuel rest).getLast?
              = (c :: rest).getLast? ∨
           (c :: jsReplaceAllAux pat rep fuel rest).getLast? = rep.getLast?)
        by_cases hrest : rest = []
        · subst hrest
          rw [jsReplaceAllAux_nil]
          exact ⟨by simp, Or.inl rfl⟩
        · obtain ⟨hne, hor⟩ := ih rest hrest
          refine ⟨by simp, ?_⟩
          have hc : (c :: jsReplaceAllAux pat rep fuel rest).getLast?
              = (jsReplaceAllAux pat rep fuel rest).getLast? :=
            getLast?_append_right [c] _ hne
          have hr : (c :: rest).getLast? = rest.getLast? :=
            getLast?_append_right [c] _ hrest
          rw [hc, hr]
          exact hor

/-- Nonempty with a non-boundary final character. -/
def lastNotBoundary (v : List Char) : Prop :=
  v ≠ [] ∧ ∀ c, v.getLast? = some c → isBoundaryChar c = false

set_option maxRecDepth 8000 in
/-- No ending-marker character is a word-boundary character. -/
theorem endingMarker_not_boundary :
    ∀ c ∈ endingMarkerChars, isBoundaryChar c = false := by
  decide

/-- A precision-mode term ends in a marker, hence not in a boundary
character. -/
theorem term_lastNotBoundary {term : List Char}
    (h : hasEndingMarker term = true) : lastNotBoundary term := by
  rw [hasEndingMarker] at h
  rcases hg : term.getLast? with _ | c
  · rw [hg] at h
    simp at h
  · rw [hg] at h
    constructor
    · intro hnil
      rw [hnil] at hg
      simp at hg
    · intro c' hc'
      rw [hg] at hc'
      injection hc' with hc'
      subst hc'
      exact endingMarker_not_boundary c (by simpa using h)

/-- Phonetic replacement preserves `lastNotBoundary` when the replacement
itself ends harmlessly. -/
theorem replaceAll_lastNotBoundary {term : List Char}
    (ht : lastNotBoundary term) (pat rep : List Char) (hrep : rep ≠ [])
    (hrepl : ∀ c, rep.getLast? = some c → isBoundaryChar c = false) :
    lastNotBoundary (jsReplaceAll term pat rep) := by
  obtain ⟨hne, hlast⟩ := ht
  obtain ⟨hne2, hor⟩ := jsReplaceAllAux_getLast pat rep hrep (term.length + 1) term hne
  refine ⟨hne2, ?_⟩
  intro c hc
  rcases hor with hor | hor
  · exact hlast c (by rw [← hor]; exact hc)
  · exact hrepl c (by rw [← hor]; exact hc)

/-- Every string in the list satisfies `lastNotBoundary`. -/
def allLastNotBoundary (l : List (List Char)) : Prop :=
  ∀ v ∈ l, lastNotBoundary v

/-- A conditional push of a harmless string preserves the invariant. -/
theorem pushIf_all {l : List (List Char)} {b : Bool} {x : List Char}
    (hl : allLastNotBoundary l) (hx : lastNotBoundary x) :
    allLastNotBoundary (pushIf l b x) := by
  rw [pushIf]
  split
  · intro v hv
    rcases List.mem_append.mp hv with hv | hv
    · exact hl v hv
    · rw [List.mem_singleton] at hv
      subst hv
      exact hx
  · exact hl

/-- Deduplication only removes elements. -/
theorem dedupKeepFirstAux_subset :
    ∀ (l seen : List (List Char)) (v : List Char),
      v ∈ JSStr.dedupKeepFirstAux seen l → v ∈ l := by
  intro l
  induction l with
  | nil => intro seen v hv; exact hv
  | cons x rest ih =>
    intro seen v hv
    rw [JSStr.dedupKeepFirstAux] at hv
    split at hv
    · exact List.mem_cons_of_mem x (ih _ v hv)
    · rcases List.mem_cons.mp hv with hv | hv
      · exact hv ▸ List.mem_cons_self x rest
      · exact List.mem_cons_of_mem x (ih _ v hv)

/-- Deduplication preserves the invariant. -/
theorem dedup_all {l : List (List Char)} (hl : allLastNotBoundary l) :
    allLastNotBoundary (JSStr.dedupKeepFirst l) := by
  intro v hv
  exact hl v (dedupKeepFirstAux_subset l [] v hv)

set_option maxRecDepth 4000 in
/-- All phonetic variants of a precision-mode term end in a non-boundary
character. -/
theorem variants_lastNotBoundary (term : List Char)
    (hterm : hasEndingMarker term = true) :
    allLastNotBoundary (generatePhoneticVariants term) := by
  have ht := term_lastNotBoundary hterm
  have hrepl : ∀ (pat rep : List Char), rep ≠ [] →
      (∀ c, rep.getLast? = some c → isBoundaryChar c = false) →
      lastNotBoundary (jsReplaceAll term pat rep) :=
    fun pat rep h1 h2 => replaceAll_lastNotBoundary ht pat rep h1 h2
  simp only [generatePhoneticVariants]
  refine dedup_all ?_
  iterate 18 refine pushIf_all ?_ ?_
  · intro v hv
    rw [List.mem_singleton] at hv
    subst hv
    exact ht
  all_goals try exact hrepl _ _ (by decide) (by decide)
  split
  · refine ⟨fun h => absurd (List.append_eq_nil.mp h).2 (by decide), ?_⟩
    intro c hc
    rw [getLast?_append_right _ _ (by decide)] at hc
    have hco : c = 'ः' := by
      have h2 : ("ः".toList).getLast? = some 'ः' := by decide
      rw [h2] at hc
      injection hc with hc
      exact hc.symm
    subst hco
    decide
  · exact ht

/-- `idxOf` returns a genuine occurrence. -/
theorem idxOf_spec (needle : List Char) :
    ∀ (l : List Char) (n : Nat), JSStr.idxOf needle l = some n →
      needle.isPrefixOf (l.drop n) = true := by
  intro l
  induction l with
  | nil =>
    intro n h
    rw [JSStr.idxOf] at h
    split at h
    · rename_i hp
      injection h with h
      subst h
      exact hp
    · simp at h
  | cons c rest ih =>
    intro n h
    rw [JSStr.idxOf] at h
    split at h
    · rename_i hp
      injection h with h
      subst h
      exact hp
    · rcases hi : JSStr.idxOf needle rest with _ | m
      · rw [hi] at h
        simp at h
      · rw [hi] at h
        simp at h
        subst h
        rw [List.drop_succ_cons]
        exact ih m hi

/-- `indexOf` returns a genuine occurrence. -/
theorem findFrom_spec {hay needle : List Char} {start p : Nat}
    (h : JSStr.findFrom hay needle start = some p) :
    needle.isPrefixOf (hay.drop p) = true := by
  rw [JSStr.findFrom] at h
  rcases hi : JSStr.idxOf needle (hay.drop start) with _ | i
  · rw [hi] at h
    simp at h
  · rw [hi] at h
    simp at h
    have hocc := idxOf_spec needle _ _ hi
    rw [List.drop_drop] at hocc
    rw [← h]
    rw [Nat.add_comm start i] at hocc
    exact hocc

/-- Case analysis on the tail boundary alternative. -/
theorem tailBnd_spec {text : List Char} {j : Nat} {t : Nat}
    (h : tailBnd text j = some t) :
    (t = 0 ∧ (j = 0 ∨ j = text.length)) ∨
    (t = 1 ∧ ∃ c, text[j]? = some c ∧ isBoundaryChar c = true) := by
  rw [tailBnd] at h
  split at h
  · rename_i hj
    injection h with h
    exact Or.inl ⟨h.symm, Or.inl hj⟩
  · rcases hg : text[j]? with _ | c
    · rw [hg] at h
      replace h : (if j = text.length then some 0 else none) = some t := h
      split at h
      · rename_i hj
        injection h with h
        exact Or.inl ⟨h.symm, Or.inr hj⟩
      · simp at h
    · rw [hg] at h
      replace h : (if isBoundaryChar c = true then some 1
          else if j = text.length then some 0 else none) = some t := h
      split at h
      · rename_i hb
        injection h with h
        exact Or.inr ⟨h.symm, c, rfl, hb⟩
      · split at h
        · rename_i hj
          injection h with h
          exact Or.inl ⟨h.symm, Or.inr hj⟩
        · simp at h

/-- A successful attempt of the boundary pattern yields an occurrence of
the variant after the consumed lead, with the tail boundary match at its
end. -/
theorem attemptAt_spec {text v : List Char} (hv : v ≠ []) {i lead tail : Nat}
    (h : attemptAt text v i = some (lead, tail)) :
    v.isPrefixOf (text.drop (i + lead)) = true ∧
      tailBnd text (i + lead + v.length) = some tail := by
  rw [attemptAt] at h
  rcases h1 : (if i = 0 ∧ v.isPrefixOf text = true then tailBnd text v.length
      else none) with _ | t1
  · rw [h1] at h
    rcases h2 : (match text[i]? with
        | some c =>
          if isBoundaryChar c = true ∧ v.isPrefixOf (text.drop (i + 1)) = true then
            tailBnd text (i + 1 + v.length)
          else none
        | none => none) with _ | t2
    · rw [h2] at h
      rcases h3 : (if i = text.length ∧ v.isPrefixOf (text.drop i) = true then
          tailBnd text i else none) with _ | t3
      · rw [h3] at h
        simp at h
      · exfalso
        by_cases hcond : i = text.length ∧ v.isPrefixOf (text.drop i) = true
        · obtain ⟨hi, hpre⟩ := hcond
          rw [hi, List.drop_length] at hpre
          cases v with
          | nil => exact hv rfl
          | cons a as => simp [List.isPrefixOf] at hpre
        · rw [if_neg hcond] at h3
          simp at h3
    · rw [h2] at h
      injection h with h
      injection h with hlead htail
      subst hlead
      subst htail
      rcases hg : text[i]? with _ | c
      · rw [hg] at h2
        simp at h2
      · rw [hg] at h2
        replace h2 : (if isBoundaryChar c = true ∧
            v.isPrefixOf (text.drop (i + 1)) = true then
              tailBnd text (i + 1 + v.length)
            else none) = some t2 := h2
        by_cases hcond : isBoundaryChar c = true ∧
            v.isPrefixOf (text.drop (i + 1)) = true
        · rw [if_pos hcond] at h2
          exact ⟨hcond.2, h2⟩
        · rw [if_neg hcond] at h2
          simp at h2
  · rw [h1] at h
    injection h with h
    injection h with hlead htail
    subst hlead
    subst htail
    by_cases hcond : i = 0 ∧ v.isPrefixOf text = true
    · obtain ⟨hi, hpre⟩ := hcond
      subst hi
      rw [if_pos ⟨rfl, hpre⟩] at h1
      constructor
      · simpa using hpre
      · simpa using h1
    · rw [if_neg hcond] at h1
      simp at h1

/-- Elements of a prefix can be read off the longer list. -/
theorem prefix_getElem? {v w : List Char} (h : v <+: w) {n : Nat}
    (hn : n < v.length) : w[n]? = v[n]? := by
  obtain ⟨u, hu⟩ := h
  rw [← hu, List.getElem?_append_left hn]

/-- With a harmless variant, the `matchStart` arithmetic lands exactly on
the variant occurrence: `match.index` plus the consumed lead. -/
theorem regexMatchStart_eq {text v : List Char} (hv : v ≠ [])
    (hlast : ∀ c, v.getLast? = some c → isBoundaryChar c = false)
    {i lead tail : Nat} (h : attemptAt text v i = some (lead, tail)) :
    regexMatchStart text v i lead tail = ((i + lead : Nat) : Int) := by
  obtain ⟨hpre, htb⟩ := attemptAt_spec hv h
  have hvlen : 1 ≤ v.length := by
    cases v with
    | nil => exact absurd rfl hv
    | cons a as => simp
  rcases tailBnd_spec htb with ⟨ht0, hj⟩ | ⟨ht1, c, hc, hb⟩
  · subst ht0
    have hj' : i + lead + v.length = text.length := by
      rcases hj with hj | hj
      · omega
      · exact hj
    rcases hg : v.getLast? with _ | c0
    · rw [List.getLast?_eq_none_iff] at hg
      exact absurd hg hv
    · have hgl : text[i + lead + (v.length - 1)]? = some c0 := by
        rw [← List.getElem?_drop]
        rw [prefix_getElem? (List.isPrefixOf_iff_prefix.mp hpre) (by omega)]
        rw [← List.getLast?_eq_getElem?]
        exact hg
      have hidx : i + (lead + v.length + 0) - 1 = i + lead + (v.length - 1) := by
        omega
      rw [regexMatchStart, hidx, hgl]
      show (i : Int) + Int.ofNat (lead + v.length + 0) - Int.ofNat v.length -
          Int.ofNat (if isBoundaryChar c0 = true then 1 else 0) =
        ((i + lead : Nat) : Int)
      rw [hlast c0 hg]
      simp only [Bool.false_eq_true, if_false, Int.ofNat_eq_coe]
      push_cast
      omega
  · subst ht1
    have hidx : i + (lead + v.length + 1) - 1 = i + lead + v.length := by
      omega
    rw [regexMatchStart, hidx, hc]
    show (i : Int) + Int.ofNat (lead + v.length + 1) - Int.ofNat v.length -
        Int.ofNat (if isBoundaryChar c = true then 1 else 0) =
      ((i + lead : Nat) : Int)
    rw [hb]
    simp only [if_true, Int.ofNat_eq_coe]
    push_cast
    omega

/-- The leftmost-match search returns a successful attempt. -/
theorem firstBMAux_spec (text v : List Char) :
    ∀ (k i : Nat) {i' lead tail : Nat},
      firstBMAux text v i k = some (i', lead, tail) →
      attemptAt text v i' = some (lead, tail) := by
  intro k
  induction k with
  | zero =>
    intro i i' lead tail h
    simp [firstBMAux] at h
  | succ k ih =>
    intro i i' lead tail h
    rw [firstBMAux] at h
    rcases ha : attemptAt text v i with _ | lt
    · rw [ha] at h
      exact ih _ h
    · rw [ha] at h
      rcases lt with ⟨l, t⟩
      injection h with h
      injection h with h1 h2
      subst h1
      rw [← h2]
      exact ha

/-- See `firstBMAux_spec`. -/
theorem firstBM_spec {text v : List Char} {start i lead tail : Nat}
    (h : firstBM text v start = some (i, lead, tail)) :
    attemptAt text v i = some (lead, tail) :=
  firstBMAux_spec text v _ start h

/-- The match is an occurrence of one of the listed variants inside the
text: its length and matched text come from that variant, and its position
is a natural index at which the variant occurs. -/
def occAt (variants : List (List Char)) (text : List Char)
    (m : SearchMatch) : Prop :=
  ∃ v ∈ variants, m.length = v.length ∧ m.matchedText = v ∧
    ∃ n : Nat, m.position = (n : Int) ∧ v.isPrefixOf (text.drop n) = true

/-- The guarded push preserves a universal property. -/
theorem pushByPos_forall {P : SearchMatch → Prop} {acc : List SearchMatch}
    {m : SearchMatch} (hacc : ∀ x ∈ acc, P x) (hm : P m) :
    ∀ x ∈ pushByPos acc m, P x := by
  rw [pushByPos]
  split
  · exact hacc
  · intro x hx
    rcases List.mem_append.mp hx with hx | hx
    · exact hacc x hx
    · rw [List.mem_singleton] at hx
      subst hx
      exact hm

/-- Every match accumulated by the boundary-scan loop for a harmless
variant `v` is an occurrence of `v`. -/
theorem exactRegexLoop_forall {P : SearchMatch → Prop}
    (cl : Nat) (text searchTerm v : List Char) (hv : v ≠ [])
    (hlast : ∀ c, v.getLast? = some c → isBoundaryChar c = false)
    (hmk : ∀ n : Nat, v.isPrefixOf (text.drop n) = true →
      P (mkExactMatch cl text searchTerm v ((n : Nat) : Int))) :
    ∀ (fuel lastIndex : Nat) (acc : List SearchMatch), (∀ m ∈ acc, P m) →
      ∀ m ∈ exactRegexLoop cl text searchTerm v lastIndex acc fuel, P m := by
  intro fuel
  induction fuel with
  | zero => intro lastIndex acc h; exact h
  | succ fuel ih =>
    intro lastIndex acc h
    rw [exactRegexLoop]
    rcases hbm : firstBM text v lastIndex with _ | ⟨i, lead, tail⟩
    · exact h
    · show ∀ m ∈
        (if lead + v.length + tail = 0 then acc
         else exactRegexLoop cl text searchTerm v (i + (lead + v.length + tail))
           (pushByPos acc
             (mkExactMatch cl text searchTerm v (regexMatchStart text v i lead tail)))
           fuel), P m
      by_cases hz : lead + v.length + tail = 0
      · rw [if_pos hz]
        exact h
      · rw [if_neg hz]
        have hat := firstBM_spec hbm
        have hms := regexMatchStart_eq hv hlast hat
        have hocc := (attemptAt_spec hv hat).1
        refine ih _ _ ?_
        rw [hms]
        exact pushByPos_forall h (hmk (i + lead) hocc)

/-- Every match accumulated by the fallback loop for variant `v` is an
occurrence of `v`. -/
theorem exactFallbackLoop_forall {P : SearchMatch → Prop}
    (cl : Nat) (text searchTerm v : List Char)
    (hmk : ∀ n : Nat, v.isPrefixOf (text.drop n) = true →
      P (mkExactMatch cl text searchTerm v ((n : Nat) : Int))) :
    ∀ (fuel idx : Nat) (acc : List SearchMatch), (∀ m ∈ acc, P m) →
      ∀ m ∈ exactFallbackLoop cl text searchTerm v idx acc fuel, P m := by
  intro fuel
  induction fuel with
  | zero => intro idx acc h; exact h
  | succ fuel ih =>
    intro idx acc h
    rw [exactFallbackLoop]
    rcases hf : JSStr.findFrom text v idx with _ | p
    · exact h
    · show ∀ m ∈ exactFallbackLoop cl text searchTerm v (p + v.length)
        (pushByPos acc (mkExactMatch cl text searchTerm v (p : Int))) fuel, P m
      exact ih _ _ (pushByPos_forall h (hmk p (findFrom_spec hf)))

/-- Per-variant processing preserves the occurrence property. -/
theorem processVariant_forall {P : SearchMatch → Prop}
    (cl : Nat) (text searchTerm v : List Char) (hv : v ≠ [])
    (hlast : ∀ c, v.getLast? = some c → isBoundaryChar c = false)
    (hmk : ∀ n : Nat, v.isPrefixOf (text.drop n) = true →
      P (mkExactMatch cl text searchTerm v ((n : Nat) : Int)))
    (acc : List SearchMatch) (h : ∀ m ∈ acc, P m) :
    ∀ m ∈ processVariant cl text searchTerm acc v, P m := by
  simp only [processVariant]
  split
  · exact exactFallbackLoop_forall cl text searchTerm v hmk _ _ _
      (exactRegexLoop_forall cl text searchTerm v hv hlast hmk _ _ _ h)
  · exact exactRegexLoop_forall cl text searchTerm v hv hlast hmk _ _ _ h

/-- Every match produced by the variant fold of `exactWordSearch` is an
occurrence of one of the variants. -/
theorem exactFold_occAt (cl : Nat) (text searchTerm : List Char)
    (variants0 : List (List Char)) :
    ∀ (vs : List (List Char)), (∀ v ∈ vs, v ∈ variants0 ∧ lastNotBoundary v) →
      ∀ (acc : List SearchMatch), (∀ m ∈ acc, occAt variants0 text m) →
      ∀ m ∈ vs.foldl (processVariant cl text searchTerm) acc,
        occAt variants0 text m := by
  intro vs
  induction vs with
  | nil => intro _ acc h; exact h
  | cons v vs ih =>
    intro hvs acc h
    rw [List.foldl_cons]
    obtain ⟨hv0, hvne, hvlast⟩ :
        v ∈ variants0 ∧ v ≠ [] ∧
          ∀ c, v.getLast? = some c → isBoundaryChar c = false := by
      obtain ⟨h1, h2, h3⟩ := hvs v (List.mem_cons_self v vs)
      exact ⟨h1, h2, h3⟩
    refine ih (fun w hw => hvs w (List.mem_cons_of_mem v hw)) _ ?_
    exact processVariant_forall cl text searchTerm v hvne hvlast
      (fun n hocc => ⟨v, hv0, rfl, rfl, n, rfl, hocc⟩) acc h

/-- C6 amended: in precision mode every returned match is an occurrence of
a phonetic-equivalence variant of the term (its matched text is the
variant, found at its position in the text); the word-boundary guarantee
of the claim fails because of the substring fallback (see
`c6_counterexample`).  The particular precision scenario holds: a query
ending in an explicit nasal mark does not match the stem with a different
vowel mark. -/
theorem c6_precision_amended :
    (∀ (o : SSOptions) (sand : Bool) (term text : List Char)
        (m : SearchMatch), hasEndingMarker term = true →
      m ∈ (search (mkConfig o) sand term text).matchesList →
      occAt (generatePhoneticVariants term) text m) ∧
    (search defaultConfig true ("रामं".toList) ("रामो गच्छति".toList)).count
      = 0 := by
  constructor
  · intro o sand term text m hmark hm
    rw [search] at hm
    split at hm
    · simp at hm
    · rename_i hne
      rw [exactWordSearch] at hm
      rw [if_neg hne] at hm
      have hm2 : m ∈ exactMatchesRaw (mkConfig o).contextLength text term := by
        have hperm := List.perm_insertionSort posLe
          (exactMatchesRaw (mkConfig o).contextLength text term)
        exact hperm.mem_iff.mp hm
      have hgood := variants_lastNotBoundary term hmark
      exact exactFold_occAt (mkConfig o).contextLength text term
        (generatePhoneticVariants term) (generatePhoneticVariants term)
        (fun v hv => ⟨hv, hgood v hv⟩) [] (by intro m hm; simp at hm) m hm2
  · decide

/-- C6 counterexample: precision-mode `search("रामं", "सरामंस")` returns a
match at position 1, but the characters immediately before and after the
matched span are `स`, which is not a word-boundary character — the
substring fallback of `exactWordSearch` drops the boundary requirement. -/
theorem c6_counterexample :
    hasEndingMarker ("रामं".toList) = true ∧
    (search defaultConfig true ("रामं".toList) ("सरामंस".toList)).matchesList.map
        (fun m => (m.position, m.length)) = [((1 : Int), 4)] ∧
    ("सरामंस".toList)[0]? = some 'स' ∧
    ("सरामंस".toList)[5]? = some 'स' ∧
    isBoundaryChar 'स' = false := by
  decide

/-- The single match of the C6 witness scenario. -/
def c6Match : SearchMatch :=
  (search defaultConfig true ("रामं".toList) ("रामं नमति".toList)).matchesList.getD
    0 nullMatch

/-- Witness for C6 amended at a concrete precision-mode query. -/
theorem c6_precision_amended_witness :
    occAt (generatePhoneticVariants ("रामं".toList)) ("रामं नमति".toList)
      c6Match :=
  c6_precision_amended.1 ⟨none, none, none, none, none⟩ true ("रामं".toList)
    ("रामं नमति".toList) c6Match (by decide) (by decide)

/-! ## C5: the index filter of `searchWithIndex` -/

/-- Document ordinal `i` is recorded for token `w` in the inverted index. -/
def memIndex (terms : List (List Char × List Nat)) (w : List Char)
    (i : Nat) : Prop :=
  ∃ is, lookupAssoc terms w = some is ∧ i ∈ is

/-- Association lookup on a cons cell. -/
theorem lookupAssoc_cons {α : Type} (k' : List Char) (v : α)
    (rest : List (List Char × α)) (k : List Char) :
    lookupAssoc ((k', v) :: rest) k =
      if k' = k then some v else lookupAssoc rest k := by
  by_cases h : k' = k
  · subst h
    rw [lookupAssoc, List.find?_cons_of_pos _ (by simp)]
    simp
  · rw [lookupAssoc, List.find?_cons_of_neg _ (by simpa using h), if_neg h]
    rfl

/-- `addTerm` preserves existing index entries. -/
theorem addTerm_mono {ts : List (List Char × List Nat)} {w : List Char}
    {i : Nat} (w' : List Char) (i' : Nat) (h : memIndex ts w i) :
    memIndex (addTerm ts w' i') w i := by
  induction ts with
  | nil =>
    rcases h with ⟨js, hl, _⟩
    rw [lookupAssoc] at hl
    simp at hl
  | cons kv rest ih =>
    rcases kv with ⟨k, is⟩
    rcases h with ⟨js, hl, hi⟩
    rw [lookupAssoc_cons] at hl
    rw [addTerm]
    split
    · rename_i hk
      subst hk
      by_cases hkw : k = w
      · rw [if_pos hkw] at hl
        injection hl with hl
        subst hl
        refine ⟨if is.contains i' then is else is ++ [i'], ?_, ?_⟩
        · rw [lookupAssoc_cons, if_pos hkw]
        · split
          · exact hi
          · exact List.mem_append_left _ hi
      · rw [if_neg hkw] at hl
        refine ⟨js, ?_, hi⟩
        rw [lookupAssoc_cons, if_neg hkw]
        exact hl
    · by_cases hkw : k = w
      · rw [if_pos hkw] at hl
        refine ⟨js, ?_, hi⟩
        rw [lookupAssoc_cons, if_pos hkw]
        exact hl
      · rw [if_neg hkw] at hl
        rcases ih ⟨js, hl, hi⟩ with ⟨ks, hl2, hi2⟩
        refine ⟨ks, ?_, hi2⟩
        rw [lookupAssoc_cons, if_neg hkw]
        exact hl2

/-- `addTerm` records the new entry. -/
theorem addTerm_self (ts : List (List Char × List Nat)) (w : List Char)
    (i : Nat) : memIndex (addTerm ts w i) w i := by
  induction ts with
  | nil =>
    refine ⟨[i], ?_, by simp⟩
    rw [addTerm, lookupAssoc_cons, if_pos rfl]
  | cons kv rest ih =>
    rcases kv with ⟨k, is⟩
    rw [addTerm]
    split
    · rename_i hk
      subst hk
      refine ⟨if is.contains i then is else is ++ [i], ?_, ?_⟩
      · rw [lookupAssoc_cons, if_pos rfl]
      · split
        · rename_i hc
          simpa using hc
        · exact List.mem_append_right _ (by simp)
    · rename_i hk
      rcases ih with ⟨js, hl, hi⟩
      refine ⟨js, ?_, hi⟩
      rw [lookupAssoc_cons, if_neg hk]
      exact hl

/-- The inner word fold preserves existing entries. -/
theorem foldWords_mono {w : List Char} {i : Nat} (i' : Nat) :
    ∀ (words : List (List Char)) (ts : List (List Char × List Nat)),
      memIndex ts w i →
      memIndex (words.foldl (fun ts w' => addTerm ts w' i') ts) w i := by
  intro words
  induction words with
  | nil => intro ts h; exact h
  | cons x words ih =>
    intro ts h
    rw [List.foldl_cons]
    exact ih _ (addTerm_mono x i' h)

/-- The inner word fold records every processed word. -/
theorem foldWords_self {w : List Char} (i : Nat) :
    ∀ (words : List (List Char)) (ts : List (List Char × List Nat)),
      w ∈ words →
      memIndex (words.foldl (fun ts w' => addTerm ts w' i) ts) w i := by
  intro words
  induction words with
  | nil => intro ts h; simp at h
  | cons x words ih =>
    intro ts h
    rw [List.foldl_cons]
    rcases List.mem_cons.mp h with h | h
    · subst h
      exact foldWords_mono i words _ (addTerm_self ts w i)
    · exact ih _ h

/-- `createIndexAux` preserves existing entries. -/
theorem createIndexAux_mono {w : List Char} {i : Nat} :
    ∀ (docs : List Document) (i0 : Nat) (acc : SearchIndex),
      memIndex acc.terms w i →
      memIndex (createIndexAux docs i0 acc).terms w i := by
  intro docs
  induction docs with
  | nil => intro i0 acc h; exact h
  | cons d docs ih =>
    intro i0 acc h
    rw [createIndexAux]
    exact ih _ _ (foldWords_mono i0 (extractWords d.text) acc.terms h)

/-- `createIndexAux` records every token of every processed document under
that document's ordinal. -/
theorem createIndexAux_mem {w : List Char} :
    ∀ (docs : List Document) (i0 : Nat) (acc : SearchIndex) (j : Nat)
      (d : Document), docs[j]? = some d → w ∈ extractWords d.text →
      memIndex (createIndexAux docs i0 acc).terms w (i0 + j) := by
  intro docs
  induction docs with
  | nil =>
    intro i0 acc j d hj
    simp at hj
  | cons d0 docs ih =>
    intro i0 acc j d hj hw
    rw [createIndexAux]
    rcases j with _ | j
    · rw [List.getElem?_cons_zero] at hj
      injection hj with hj
      subst hj
      rw [Nat.add_zero]
      exact createIndexAux_mono docs (i0 + 1) _
        (foldWords_self i0 (extractWords d0.text) acc.terms hw)
    · rw [List.getElem?_cons_succ] at hj
      have := ih (i0 + 1) ⟨acc.documents ++ [d0.id],
        (extractWords d0.text).foldl (fun ts w' => addTerm ts w' i0) acc.terms⟩
        j d hj hw
      rw [show i0 + 1 + j = i0 + (j + 1) from by omega] at this
      exact this

/-- Membership in the accumulated ordinal set survives further pushes. -/
theorem pushNat_foldl_mono {i : Nat} :
    ∀ (is acc : List Nat), i ∈ acc →
      i ∈ is.foldl (fun a i' => if a.contains i' then a else a ++ [i']) acc := by
  intro is
  induction is with
  | nil => intro acc h; exact h
  | cons x is ih =>
    intro acc h
    rw [List.foldl_cons]
    refine ih _ ?_
    split
    · exact h
    · exact List.mem_append_left _ h

/-- Every pushed ordinal ends up in the accumulated set. -/
theorem pushNat_foldl_self {i : Nat} :
    ∀ (is acc : List Nat), i ∈ is →
      i ∈ is.foldl (fun a i' => if a.contains i' then a else a ++ [i']) acc := by
  intro is
  induction is with
  | nil => intro acc h; simp at h
  | cons x is ih =>
    intro acc h
    rw [List.foldl_cons]
    rcases List.mem_cons.mp h with h | h
    · subst h
      refine pushNat_foldl_mono is _ ?_
      split
      · rename_i hc
        simpa using hc
      · exact List.mem_append_right _ (by simp)
    · exact ih _ h

/-- The relevant-ordinal fold of `searchWithIndex` preserves membership. -/
theorem relevantFold_mono (terms : List (List Char × List Nat)) {i : Nat} :
    ∀ (ws : List (List Char)) (acc : List Nat), i ∈ acc →
      i ∈ ws.foldl (fun acc w =>
        match lookupAssoc terms w with
        | some is => is.foldl (fun a i' => if a.contains i' then a else a ++ [i']) acc
        | none => acc) acc := by
  intro ws
  induction ws with
  | nil => intro acc h; exact h
  | cons w ws ih =>
    intro acc h
    rw [List.foldl_cons]
    refine ih _ ?_
    show i ∈ (match lookupAssoc terms w with
      | some is => is.foldl (fun (a : List Nat) i' => if a.contains i' then a else a ++ [i']) acc
      | none => acc)
    rcases lookupAssoc terms w with _ | is
    · exact h
    · exact pushNat_foldl_mono is acc h

/-- The relevant-ordinal fold picks up every indexed ordinal of every
token of the term. -/
theorem relevantFold_mem (terms : List (List Char × List Nat)) {i : Nat}
    {w : List Char} (hw : memIndex terms w i) :
    ∀ (ws : List (List Char)) (acc : List Nat), w ∈ ws →
      i ∈ ws.foldl (fun acc w' =>
        match lookupAssoc terms w' with
        | some is => is.foldl (fun a i' => if a.contains i' then a else a ++ [i']) acc
        | none => acc) acc := by
  intro ws
  induction ws with
  | nil => intro acc h; simp at h
  | cons w' ws ih =>
    intro acc h
    rw [List.foldl_cons]
    rcases List.mem_cons.mp h with h | h
    · subst h
      rcases hw with ⟨is, hl, hi⟩
      refine relevantFold_mono terms ws _ ?_
      show i ∈ (match lookupAssoc terms w with
        | some is => is.foldl (fun (a : List Nat) i' => if a.contains i' then a else a ++ [i']) acc
        | none => acc)
      rw [hl]
      exact pushNat_foldl_self is acc hi
    · exact ih _ h

/-- C5: the inverted index is keyed by whole tokens, so a term that only
occurs as a proper substring of a document token yields no relevant
ordinals and `searchWithIndex` returns nothing, even though the full
`searchMultiple` finds the substring match: the claim that index absence
never short-circuits a full-search hit is false. -/
theorem c5_counterexample :
    searchWithIndex defaultConfig true ("राम".toList)
      (createIndex [⟨0, "रामः".toList⟩]) [⟨0, "रामः".toList⟩] = [] ∧
    (searchMultiple defaultConfig true ("राम".toList)
      [⟨0, "रामः".toList⟩]).map (fun r => (r.id, r.count)) = [(0, 1)] := by
  exact ⟨rfl, rfl⟩

/-- C5 (amended): the index filter is sound for token-sharing documents:
whenever the search term and a document share a whole extracted token and
the full search of that document finds at least one match, the document
does appear in the `searchWithIndex` result with a positive count. -/
theorem c5_index_filter_amended (opts : SSOptions) (sand : Bool)
    (term : List Char) (docs : List Document) (j : Nat) (doc : Document)
    (hj : docs[j]? = some doc)
    (hshare : ∃ w ∈ extractWords term, w ∈ extractWords doc.text)
    (hmatch : 0 < (search (mkConfig opts) sand term doc.text).count) :
    ∃ r ∈ searchWithIndex (mkConfig opts) sand term (createIndex docs) docs,
      r.id = doc.id ∧ 0 < r.count := by
  rcases hshare with ⟨w, hwterm, hwdoc⟩
  have hmem : memIndex (createIndex docs).terms w j := by
    have := createIndexAux_mem docs 0 ⟨[], []⟩ j doc hj hwdoc
    rwa [Nat.zero_add] at this
  have hrel : j ∈ (extractWords term).foldl (fun acc w' =>
      match lookupAssoc (createIndex docs).terms w' with
      | some is => is.foldl (fun a i' => if a.contains i' then a else a ++ [i']) acc
      | none => acc) ([] : List Nat) :=
    relevantFold_mem (createIndex docs).terms hmem (extractWords term) [] hwterm
  have hdocmem : doc ∈ ((extractWords term).foldl (fun acc w' =>
      match lookupAssoc (createIndex docs).terms w' with
      | some is => is.foldl (fun a i' => if a.contains i' then a else a ++ [i']) acc
      | none => acc) ([] : List Nat)).filterMap (fun i => docs[i]?) :=
    List.mem_filterMap.mpr ⟨j, hrel, hj⟩
  refine ⟨⟨doc.id, (search (mkConfig opts) sand term doc.text).matchesList,
    (search (mkConfig opts) sand term doc.text).count,
    (search (mkConfig opts) sand term doc.text).searchTerm⟩, ?_, rfl, hmatch⟩
  simp only [searchWithIndex, searchMultiple]
  refine List.mem_filter.mpr ⟨?_, by simpa using hmatch⟩
  exact List.mem_map.mpr ⟨doc, hdocmem, rfl⟩

/-- Witness for the amended C5 statement on a document whose token equals
the search term. -/
theorem c5_index_filter_amended_witness :
    ∃ r ∈ searchWithIndex (mkConfig ⟨none, none, none, none, none⟩) true
      ("रामः".toList) (createIndex [⟨0, "रामः".toList⟩])
      [⟨0, "रामः".toList⟩], r.id = 0 ∧ 0 < r.count :=
  c5_index_filter_amended ⟨none, none, none, none, none⟩ true ("रामः".toList)
    [⟨0, "रामः".toList⟩] 0 ⟨0, "रामः".toList⟩ (by decide)
    ⟨"रामः".toList, by decide, by decide⟩ (by decide)
